import Mathlib

/- Shallow embedding of the sparse Merkle tree over a key-value store
   (src/merkle_tree.ts and src/sha256_hasher.ts).  The SHA-256 digest itself
   is provided by the external crypto library, so the development is
   parameterised over an abstract digest function H : Bytes → Bytes.
   Buffers are byte lists; the levelup store is an association list whose
   put prepends (latest entry wins on lookup), which models overwrite. -/

abbrev Bytes := List Nat

abbrev Store := List (Bytes × Bytes)

/- Operations performed against the external store, in program order. -/
inductive StoreOp where
  | get (key : Bytes)
  | put (key value : Bytes)
deriving DecidableEq

/- The errors thrown by the source: Error('Bad depth'), Error('Bad leaf value'),
   the RangeError thrown by Buffer.writeUInt32LE on out-of-range values, and
   the store's not-found error. -/
inductive TreeError where
  | badDepth
  | badLeafValue
  | outOfRange
  | notFound
deriving DecidableEq

def isOkE {ε α : Type} : Except ε α → Bool
  | Except.ok _ => true
  | Except.error _ => false

def okD {ε α : Type} (x : Except ε α) (d : α) : α :=
  match x with
  | Except.ok a => a
  | Except.error _ => d

def StoreOp.isGet : StoreOp → Bool
  | StoreOp.get _ => true
  | StoreOp.put _ _ => false

/- Effect of a trace of store operations on the store: a get changes nothing,
   a put prepends the entry (levelup overwrite). -/
def applyOps (s : Store) : List StoreOp → Store
  | [] => s
  | StoreOp.get _ :: rest => applyOps s rest
  | StoreOp.put k v :: rest => applyOps ((k, v) :: s) rest

/- db.get: resolves with the stored value, rejects (not-found) otherwise. -/
def dbGet (s : Store) (k : Bytes) : Except TreeError Bytes :=
  match s.lookup k with
  | some v => Except.ok v
  | none => Except.error TreeError.notFound

/- Buffer.writeUInt32LE: the four little-endian bytes of a uint32. -/
def uint32LE (n : Nat) : Bytes :=
  [n % 256, n / 256 % 256, n / 65536 % 256, n / 16777216 % 256]

/- Buffer.readUInt32LE at an offset.  (The source would throw on a buffer
   shorter than offset+4; every metadata record here is 40 bytes.) -/
def readUInt32LE (b : Bytes) (off : Nat) : Nat :=
  b.getD off 0 + 256 * b.getD (off + 1) 0 + 65536 * b.getD (off + 2) 0 +
    16777216 * b.getD (off + 3) 0

/- Buffer.toString()/utf8 re-encoding: node keys are converted to strings
   before reaching the store, which decodes the bytes as UTF-8 with U+FFFD
   replacement and re-encodes them.  Valid sequences pass through unchanged;
   each invalid byte or truncated sequence becomes EF BF BD. -/
def utf8Rep : Bytes := [239, 191, 189]

def isCont (b : Nat) : Bool := 128 ≤ b && b ≤ 191

def validCont3 (lead b : Nat) : Bool :=
  if lead == 224 then 160 ≤ b && b ≤ 191
  else if lead == 237 then 128 ≤ b && b ≤ 159
  else isCont b

def validCont4 (lead b : Nat) : Bool :=
  if lead == 240 then 144 ≤ b && b ≤ 191
  else if lead == 244 then 128 ≤ b && b ≤ 143
  else isCont b

def utf8RoundTrip : Bytes → Bytes
  | [] => []
  | b :: rest =>
    if b < 128 then b :: utf8RoundTrip rest
    else if 194 ≤ b && b ≤ 223 then
      match rest with
      | [] => utf8Rep
      | b2 :: rest2 =>
        if isCont b2 then b :: b2 :: utf8RoundTrip rest2
        else utf8Rep ++ utf8RoundTrip (b2 :: rest2)
    else if 224 ≤ b && b ≤ 239 then
      match rest with
      | [] => utf8Rep
      | b2 :: rest2 =>
        if validCont3 b b2 then
          match rest2 with
          | [] => utf8Rep
          | b3 :: rest3 =>
            if isCont b3 then b :: b2 :: b3 :: utf8RoundTrip rest3
            else utf8Rep ++ utf8RoundTrip (b3 :: rest3)
        else utf8Rep ++ utf8RoundTrip (b2 :: rest2)
    else if 240 ≤ b && b ≤ 244 then
      match rest with
      | [] => utf8Rep
      | b2 :: rest2 =>
        if validCont4 b b2 then
          match rest2 with
          | [] => utf8Rep
          | b3 :: rest3 =>
            if isCont b3 then
              match rest3 with
              | [] => utf8Rep
              | b4 :: rest4 =>
                if isCont b4 then b :: b2 :: b3 :: b4 :: utf8RoundTrip rest4
                else utf8Rep ++ utf8RoundTrip (b4 :: rest4)
            else utf8Rep ++ utf8RoundTrip (b3 :: rest3)
        else utf8Rep ++ utf8RoundTrip (b2 :: rest2)
    else utf8Rep ++ utf8RoundTrip rest

/- JavaScript 32-bit coercions.  The bitwise operators in the source
   (index ^ 1, index & 1, index >> 1) apply ToInt32 to their operands and
   produce a signed 32-bit result; >> is the sign-propagating shift. -/
def patOf (x : Int) : Nat := (x % 4294967296).toNat

def int32OfPat (p : Nat) : Int :=
  if p < 2147483648 then (p : Int) else (p : Int) - 4294967296

def toInt32 (x : Int) : Int := int32OfPat (patOf x)

def jsXor1 (x : Int) : Int := int32OfPat (patOf x ^^^ 1)

def jsEven (x : Int) : Bool := patOf x &&& 1 == 0

def jsShr1 (x : Int) : Int := Int.fdiv (toInt32 x) 2

/- Sha256Hasher.compress: hash of the concatenation of the two children. -/
def compress (H : Bytes → Bytes) (lhs rhs : Bytes) : Bytes := H (lhs ++ rhs)

/- The canonical empty-subtree hash, as the spec defines it:
   emptyHash(0) = hash(64 zero bytes), emptyHash(d+1) = compress twice. -/
def emptyHashRec (H : Bytes → Bytes) : Nat → Bytes
  | 0 => H (List.replicate 64 0)
  | d + 1 => compress H (emptyHashRec H d) (emptyHashRec H d)

/- Sha256Hasher.emptyHash's cache loop: while depth >= cache.length - 1,
   push compress(last, last).  Written with explicit fuel (the loop runs at
   most depth + 1 times from any nonempty cache); the guard is re-tested on
   every iteration, so surplus fuel does not change the result. -/
def growCacheAux (H : Bytes → Bytes) (depth : Nat) : Nat → List Bytes → List Bytes
  | 0, cache => cache
  | fuel + 1, cache =>
    if depth + 1 ≥ cache.length then
      growCacheAux H depth fuel
        (cache ++ [compress H (cache.getLastD []) (cache.getLastD [])])
    else cache

/- Sha256Hasher.emptyHash.  The per-instance cache always holds exactly
   the values emptyHashRec 0, 1, ..., so computing from the constructor's
   initial cache [hash(64 zero bytes)] gives the value any call returns. -/
def emptyHash (H : Bytes → Bytes) (depth : Nat) : Bytes :=
  (growCacheAux H depth (depth + 2) [H (List.replicate 64 0)]).getD depth []

structure MerkleTree where
  name : Bytes
  depth : Nat
  root : Bytes
deriving DecidableEq

/- MerkleTree.generateKey: hash(name ++ depth:uint32-LE ++ index:uint32-LE).
   The index reaching this point is a JS number; writeUInt32LE throws a
   RangeError unless it lies in [0, 2^32), and likewise for the depth. -/
def generateKey (H : Bytes → Bytes) (name : Bytes) (depth : Nat) (index : Int) :
    Except TreeError Bytes :=
  if 0 ≤ index ∧ index < 4294967296 ∧ depth < 4294967296 then
    Except.ok (H (name ++ uint32LE depth ++ uint32LE index.toNat))
  else Except.error TreeError.outOfRange

/- The catch block of readNode: any failure of the store fetch, the
   genuine not-found included, is replaced by the empty-subtree hash. -/
def fetchCatch (H : Bytes → Bytes) (depth : Nat) (res : Except TreeError Bytes) :
    Bytes :=
  match res with
  | Except.ok v => v
  | Except.error _ => emptyHash H depth

/- MerkleTree.readNode.  generateKey runs outside the try block, so its
   RangeError propagates; the db.get (traced) is guarded by fetchCatch.
   The store key is key.toString(), i.e. the UTF-8 round-trip of the digest. -/
def readNode (H : Bytes → Bytes) (s : Store) (name : Bytes) (depth : Nat)
    (index : Int) : List StoreOp × Except TreeError Bytes :=
  match generateKey H name depth index with
  | Except.error e => ([], Except.error e)
  | Except.ok keyBuf =>
    ([StoreOp.get (utf8RoundTrip keyBuf)],
      Except.ok (fetchCatch H depth (dbGet s (utf8RoundTrip keyBuf))))

/- MerkleTree.writeNode: rejects values longer than LEAF_BYTES = 64, then
   puts the value under key.toString(). -/
def writeNode (H : Bytes → Bytes) (s : Store) (name : Bytes) (depth : Nat)
    (index : Int) (value : Bytes) : Except TreeError Store :=
  if value.length > 64 then Except.error TreeError.badLeafValue
  else
    match generateKey H name depth index with
    | Except.error e => Except.error e
    | Except.ok keyBuf => Except.ok ((utf8RoundTrip keyBuf, value) :: s)

/- MerkleTree.writeMetaData: Buffer.alloc(40), root.copy(data),
   data.writeUInt32LE(depth, 32).  With a 32-byte root this is
   root ++ depth-LE4 ++ four zero bytes. -/
def writeMetaData (root : Bytes) (depth : Nat) : Bytes :=
  let data := root.take 40 ++ List.replicate (40 - min root.length 40) 0
  data.take 32 ++ uint32LE depth ++ data.drop 36

/- MerkleTree.new: db.get(name) first (failures swallowed); if a metadata
   record exists, its root and persisted depth win and the requested depth is
   ignored; otherwise the constructor validates the requested depth, sets the
   root to emptyHash(depth) and writeMetaData persists the record.  The
   constructor's depth check also runs on the loaded depth.  The first
   component is the trace of store operations performed. -/
def MerkleTree.new (H : Bytes → Bytes) (s : Store) (name : Bytes) (depth : Nat) :
    List StoreOp × Except TreeError (Store × MerkleTree) :=
  match s.lookup name with
  | some meta =>
    let root := meta.take 32
    let d := readUInt32LE meta 32
    if 1 ≤ d ∧ d ≤ 32 then ([StoreOp.get name], Except.ok (s, ⟨name, d, root⟩))
    else ([StoreOp.get name], Except.error TreeError.badDepth)
  | none =>
    if 1 ≤ depth ∧ depth ≤ 32 then
      ([StoreOp.get name, StoreOp.put name (writeMetaData (emptyHash H depth) depth)],
        Except.ok ((name, writeMetaData (emptyHash H depth) depth) :: s,
          ⟨name, depth, emptyHash H depth⟩))
    else ([StoreOp.get name], Except.error TreeError.badDepth)

def getRoot (t : MerkleTree) : Bytes := t.root

/- The while loop of updateElement, entered at level 1.  Fuel counts the
   remaining iterations (the loop runs while level <= depth, so depth many
   from level 1); the guard is still tested so the two stopping conditions
   coincide.  On a thrown error the store writes already performed persist,
   so the store is returned alongside the outcome. -/
def updateLoopAux (H : Bytes → Bytes) (name : Bytes) (D : Nat) :
    Nat → Store → Nat → Int → Bytes → Store × Except TreeError Bytes
  | 0, s, _, _, h => (s, Except.ok h)
  | fuel + 1, s, level, index, h =>
    if level > D then (s, Except.ok h)
    else
      match (readNode H s name (level - 1) (jsXor1 index)).2 with
      | Except.error e => (s, Except.error e)
      | Except.ok sib =>
        let h2 := if jsEven index then compress H h sib else compress H sib h
        match writeNode H s name level (jsShr1 index) h2 with
        | Except.error e => (s, Except.error e)
        | Except.ok s2 => updateLoopAux H name D fuel s2 (level + 1) (jsShr1 index) h2

/- MerkleTree.updateElement: hash the raw value, write the hash at
   (0, index), walk to the root, then set this.root and persist metadata. -/
def updateElement (H : Bytes → Bytes) (s : Store) (t : MerkleTree) (index : Int)
    (value : Bytes) : Store × MerkleTree × Except TreeError Bytes :=
  let hv := H value
  match writeNode H s t.name 0 index hv with
  | Except.error e => (s, t, Except.error e)
  | Except.ok s1 =>
    match updateLoopAux H t.name t.depth t.depth s1 1 index hv with
    | (s2, Except.error e) => (s2, t, Except.error e)
    | (s2, Except.ok h) =>
      ((t.name, writeMetaData h t.depth) :: s2, { t with root := h }, Except.ok h)

/- The while loop of getHashPath, entered at level 0 with fuel depth
   (the loop runs while level < depth).  The sibling is read first, then the
   node, and the pair is pushed ordered by the parity of the current index. -/
def hashPathAux (H : Bytes → Bytes) (s : Store) (name : Bytes) (D : Nat) :
    Nat → Nat → Int → List StoreOp × Except TreeError (List (Bytes × Bytes))
  | 0, _, _ => ([], Except.ok [])
  | fuel + 1, level, index =>
    if level ≥ D then ([], Except.ok [])
    else
      match readNode H s name level (jsXor1 index) with
      | (o1, Except.error e) => (o1, Except.error e)
      | (o1, Except.ok sh) =>
        match readNode H s name level index with
        | (o2, Except.error e) => (o1 ++ o2, Except.error e)
        | (o2, Except.ok nh) =>
          let pair := if jsEven index then (nh, sh) else (sh, nh)
          match hashPathAux H s name D fuel (level + 1) (jsShr1 index) with
          | (o3, Except.error e) => (o1 ++ o2 ++ o3, Except.error e)
          | (o3, Except.ok rest) => (o1 ++ o2 ++ o3, Except.ok (pair :: rest))

/- MerkleTree.getHashPath. -/
def getHashPath (H : Bytes → Bytes) (s : Store) (t : MerkleTree) (index : Int) :
    List StoreOp × Except TreeError (List (Bytes × Bytes)) :=
  hashPathAux H s t.name t.depth t.depth 0 index

/- A sequence of updateElement calls, threading the store and tree through
   every call (a thrown call leaves its partial writes behind, as in the
   source); the flag records whether every call succeeded. -/
def applyUpdates (H : Bytes → Bytes) :
    Store × MerkleTree → List (Int × Bytes) → Store × MerkleTree × Bool
  | (s, t), [] => (s, t, true)
  | (s, t), (i, v) :: rest =>
    let r := updateElement H s t i v
    let fin := applyUpdates H (r.1, r.2.1) rest
    (fin.1, fin.2.1, isOkE r.2.2 && fin.2.2)

/- Specification-side view of the tree.  The leaves assignment is an
   association list of (index, raw value) pairs, most recent update first. -/
def leafHash (H : Bytes → Bytes) (leaves : List (Nat × Bytes)) (i : Nat) : Bytes :=
  match leaves.lookup i with
  | some v => H v
  | none => emptyHashRec H 0

/- The mathematical value of the node (level, index) determined by a leaves
   assignment: leaf hashes at level 0, compress of the two children above. -/
def nodeVal (H : Bytes → Bytes) (leaves : List (Nat × Bytes)) :
    Nat → Nat → Bytes
  | 0, j => leafHash H leaves j
  | l + 1, j => compress H (nodeVal H leaves l (2 * j)) (nodeVal H leaves l (2 * j + 1))

/- The store key actually used for the node (level, index), index in range. -/
def nodeKey (H : Bytes → Bytes) (name : Bytes) (level index : Nat) : Bytes :=
  utf8RoundTrip (H (name ++ uint32LE level ++ uint32LE index))

/- The value readNode yields for (level, index): the stored bytes, or the
   empty-subtree hash when the key is absent. -/
def nodeAt (H : Bytes → Bytes) (s : Store) (name : Bytes) (level index : Nat) :
    Bytes :=
  match s.lookup (nodeKey H name level index) with
  | some v => v
  | none => emptyHash H level

/- The pair pushed by getHashPath at a level: (node, sibling) when the index
   is even, (sibling, node) when odd. -/
def pairAt (H : Bytes → Bytes) (s : Store) (name : Bytes) (level j : Nat) :
    Bytes × Bytes :=
  if j % 2 = 0 then (nodeAt H s name level j, nodeAt H s name level (j ^^^ 1))
  else (nodeAt H s name level (j ^^^ 1), nodeAt H s name level j)

/- The list of pairs getHashPath produces, described level by level. -/
def pathPairs (H : Bytes → Bytes) (s : Store) (name : Bytes) (D : Nat) :
    Nat → Nat → Nat → List (Bytes × Bytes)
  | 0, _, _ => []
  | fuel + 1, level, j =>
    if level ≥ D then []
    else pairAt H s name level j :: pathPairs H s name D fuel (level + 1) (j / 2)

/- Bottom-up fold check over a hash path for leaf index i: the compress of
   each pair must be the parity-appropriate component of the next pair, and
   the compress of the top pair must be the root. -/
def pathLinkedB (H : Bytes → Bytes) : Nat → List (Bytes × Bytes) → Bytes → Bool
  | _, [], _ => true
  | _, [p], root => compress H p.1 p.2 == root
  | i, p :: q :: rest, root =>
    (compress H p.1 p.2 == (if (i / 2) % 2 = 0 then q.1 else q.2)) &&
      pathLinkedB H (i / 2) (q :: rest) root

/- The cryptographic side conditions a hash-addressed store needs: within the
   node domain of a depth-D tree the derived keys are pairwise distinct, never
   equal to the metadata key, and absent from the given (pre-existing) store. -/
def KeyInjOn (H : Bytes → Bytes) (name : Bytes) (D : Nat) : Prop :=
  ∀ l < D + 1, ∀ j < 2 ^ (D - l), ∀ l2 < D + 1, ∀ j2 < 2 ^ (D - l2),
    nodeKey H name l j = nodeKey H name l2 j2 → l = l2 ∧ j = j2

def KeyNameFree (H : Bytes → Bytes) (name : Bytes) (D : Nat) : Prop :=
  ∀ l < D + 1, ∀ j < 2 ^ (D - l), nodeKey H name l j ≠ name

def KeyFreshFor (H : Bytes → Bytes) (name : Bytes) (D : Nat) (s : Store) : Prop :=
  ∀ l < D + 1, ∀ j < 2 ^ (D - l), s.lookup (nodeKey H name l j) = none

/- The full store invariant: every node of the tree reads back as the value
   the leaves assignment determines. -/
def InvAt (H : Bytes → Bytes) (name : Bytes) (D : Nat)
    (leaves : List (Nat × Bytes)) (s : Store) : Prop :=
  ∀ m < D + 1, ∀ j < 2 ^ (D - m), nodeAt H s name m j = nodeVal H leaves m j

/- The invariant in the middle of an updateElement walk that has rewritten
   levels below the given one along the path of leaf i. -/
def MidInvAt (H : Bytes → Bytes) (name : Bytes) (D : Nat)
    (ol nl : List (Nat × Bytes)) (i level : Nat) (s : Store) : Prop :=
  ∀ m < D + 1, ∀ j < 2 ^ (D - m),
    nodeAt H s name m j =
      if m < level ∧ j = i / 2 ^ m then nodeVal H nl m j else nodeVal H ol m j

/- A concrete digest function used to instantiate the abstract hash in
   witnesses: 32 bytes, ASCII range, injective on the short inputs the
   witnesses use. -/
def Hw (b : Bytes) : Bytes := (b.map (fun x => x % 64) ++ List.replicate 32 65).take 32

/- A concrete digest function whose digests contain non-ASCII bytes. -/
def Hmang : Bytes → Bytes := fun _ => List.replicate 32 128

deriving instance DecidableEq for Except

/- The UTF-8 round-trip is the identity on ASCII byte lists, so digests that
   happen to stay below 0x80 are stored under themselves. -/
theorem utf8RoundTrip_ascii : ∀ l : Bytes, (∀ b ∈ l, b < 128) → utf8RoundTrip l = l := by
  intro l
  induction l with
  | nil => intro _; rfl
  | cons b rest ih =>
    intro h
    have hb : b < 128 := h b (List.mem_cons_self b rest)
    rw [utf8RoundTrip.eq_def]
    simp only [if_pos hb]
    rw [ih (fun x hx => h x (List.mem_cons_of_mem b hx))]

/- XOR with one on naturals: flips the last bit. -/
theorem xor_one_of_even (j : Nat) (h : j % 2 = 0) : j ^^^ 1 = j + 1 := by
  apply Nat.eq_of_testBit_eq
  intro i
  cases i with
  | zero =>
    rw [Nat.testBit_xor]
    simp only [Nat.testBit_zero]
    have h1 : (j + 1) % 2 = 1 := by omega
    simp [h, h1]
  | succ i =>
    rw [Nat.testBit_xor]
    have h1 : Nat.testBit 1 (i + 1) = false := by
      rw [Nat.testBit_add_one]; simp
    rw [h1, Nat.testBit_add_one, Nat.testBit_add_one]
    have : (j + 1) / 2 = j / 2 := by omega
    rw [this]
    simp

theorem xor_one_of_odd (j : Nat) (h : j % 2 = 1) : j ^^^ 1 = j - 1 := by
  apply Nat.eq_of_testBit_eq
  intro i
  cases i with
  | zero =>
    rw [Nat.testBit_xor]
    simp only [Nat.testBit_zero]
    have h2 : (j - 1) % 2 = 0 := by omega
    simp [h, h2]
  | succ i =>
    rw [Nat.testBit_xor]
    have h1 : Nat.testBit 1 (i + 1) = false := by
      rw [Nat.testBit_add_one]; simp
    rw [h1, Nat.testBit_add_one, Nat.testBit_add_one]
    have : (j - 1) / 2 = j / 2 := by omega
    rw [this]
    simp

theorem xor_one_ne (j : Nat) : j ^^^ 1 ≠ j := by
  rcases Nat.even_or_odd j with he | ho
  · have h1 : j % 2 = 0 := Nat.even_iff.mp he
    rw [xor_one_of_even j h1]; omega
  · have h1 : j % 2 = 1 := Nat.odd_iff.mp ho
    rw [xor_one_of_odd j h1]; omega

theorem xor_one_div_two (j : Nat) : (j ^^^ 1) / 2 = j / 2 := by
  rcases Nat.even_or_odd j with he | ho
  · have h1 : j % 2 = 0 := Nat.even_iff.mp he
    rw [xor_one_of_even j h1]; omega
  · have h1 : j % 2 = 1 := Nat.odd_iff.mp ho
    rw [xor_one_of_odd j h1]; omega

theorem xor_one_lt (j k : Nat) (hk : 1 ≤ k) (h : j < 2 ^ k) : j ^^^ 1 < 2 ^ k := by
  have hpow : 2 ^ k % 2 = 0 := by
    have : (2 : Nat) ∣ 2 ^ k := dvd_pow_self 2 (by omega)
    omega
  rcases Nat.even_or_odd j with he | ho
  · rw [xor_one_of_even j (Nat.even_iff.mp he)]
    have hj2 : j % 2 = 0 := Nat.even_iff.mp he
    omega
  · have h1 : j % 2 = 1 := Nat.odd_iff.mp ho
    rw [xor_one_of_odd j h1]; omega

theorem xor_one_ge (j : Nat) (h : 2147483648 ≤ j) : 2147483648 ≤ j ^^^ 1 := by
  rcases Nat.even_or_odd j with he | ho
  · have h1 : j % 2 = 0 := Nat.even_iff.mp he
    rw [xor_one_of_even j h1]; omega
  · have h1 : j % 2 = 1 := Nat.odd_iff.mp ho
    rw [xor_one_of_odd j h1]; omega

/- Bridges from the JavaScript 32-bit operations to plain Nat arithmetic on
   the small range where no coercion effect is visible. -/
theorem patOf_natCast (j : Nat) (h : j < 4294967296) : patOf (j : Int) = j := by
  unfold patOf
  rw [Int.emod_eq_of_lt (Int.natCast_nonneg j) (by exact_mod_cast h)]
  exact Int.toNat_natCast j

theorem int32OfPat_small (p : Nat) (h : p < 2147483648) : int32OfPat p = (p : Int) := by
  unfold int32OfPat
  rw [if_pos h]

theorem jsXor1_natCast (j : Nat) (h : j < 2147483648) : jsXor1 (j : Int) = ((j ^^^ 1 : Nat) : Int) := by
  unfold jsXor1
  rw [patOf_natCast j (by omega), int32OfPat_small]
  exact xor_one_lt j 31 (by omega) h

theorem jsEven_natCast (j : Nat) (h : j < 4294967296) : jsEven (j : Int) = decide (j % 2 = 0) := by
  unfold jsEven
  rw [patOf_natCast j h, Nat.and_one_is_mod]
  rcases Nat.even_or_odd j with he | ho
  · have h1 : j % 2 = 0 := Nat.even_iff.mp he
    simp [h1]
  · have h1 : j % 2 = 1 := Nat.odd_iff.mp ho
    simp [h1]

theorem jsShr1_natCast (j : Nat) (h : j < 2147483648) : jsShr1 (j : Int) = ((j / 2 : Nat) : Int) := by
  unfold jsShr1 toInt32
  rw [patOf_natCast j (by omega), int32OfPat_small j h]
  rw [Int.fdiv_eq_tdiv (Int.natCast_nonneg j) (by norm_num)]
  rfl

theorem jsXor1_neg (j : Nat) (h1 : 2147483648 ≤ j) (h2 : j < 4294967296) :
    jsXor1 (j : Int) < 0 := by
  unfold jsXor1
  rw [patOf_natCast j h2]
  have ha : 2147483648 ≤ j ^^^ 1 := xor_one_ge j h1
  have hb : j ^^^ 1 < 4294967296 := xor_one_lt j 32 (by omega) h2
  unfold int32OfPat
  rw [if_neg (by omega)]
  have : ((j ^^^ 1 : Nat) : Int) < 4294967296 := by exact_mod_cast hb
  omega

/- The cache loop always holds exactly the empty-subtree hashes 0, 1, ...;
   with enough fuel it grows past the requested depth. -/
theorem growCacheAux_spec (H : Bytes → Bytes) (depth : Nat) :
    ∀ fuel m, depth + 2 ≤ m + 1 + fuel →
      ∃ n, m ≤ n ∧ depth + 1 ≤ n ∧
        growCacheAux H depth fuel ((List.range (m + 1)).map (emptyHashRec H)) =
          (List.range (n + 1)).map (emptyHashRec H) := by
  intro fuel
  induction fuel with
  | zero =>
    intro m hm
    exact ⟨m, le_refl m, by omega, rfl⟩
  | succ fuel ih =>
    intro m hm
    simp only [growCacheAux]
    by_cases hg : depth + 1 ≥ ((List.range (m + 1)).map (emptyHashRec H)).length
    · rw [if_pos hg]
      have hlast : ((List.range (m + 1)).map (emptyHashRec H)).getLastD [] =
          emptyHashRec H m := by
        rw [List.range_succ, List.map_append]
        exact List.getLastD_concat _ _ _
      rw [hlast]
      have happ : (List.range (m + 1)).map (emptyHashRec H) ++
          [compress H (emptyHashRec H m) (emptyHashRec H m)] =
          (List.range (m + 1 + 1)).map (emptyHashRec H) := by
        rw [List.range_succ (m + 1), List.map_append]
        rfl
      rw [happ]
      obtain ⟨n, h1, h2, h3⟩ := ih (m + 1) (by omega)
      exact ⟨n, by omega, h2, h3⟩
    · rw [if_neg hg]
      rw [List.length_map, List.length_range] at hg
      exact ⟨m, le_refl m, by omega, rfl⟩

/- Sha256Hasher.emptyHash computes exactly the canonical empty-subtree hash
   of the requested depth. -/
theorem emptyHash_eq_rec (H : Bytes → Bytes) (depth : Nat) :
    emptyHash H depth = emptyHashRec H depth := by
  unfold emptyHash
  have h0 : [H (List.replicate 64 0)] = (List.range (0 + 1)).map (emptyHashRec H) := by
    simp [List.range_succ]
    rfl
  rw [h0]
  obtain ⟨n, _, h2, h3⟩ := growCacheAux_spec H depth (depth + 2) 0 (by omega)
  rw [h3, List.getD_eq_getElem?_getD, List.getElem?_map, List.getElem?_range (by omega)]
  rfl

/- generateKey on an in-range natural index. -/
theorem generateKey_nat (H : Bytes → Bytes) (name : Bytes) (depth j : Nat)
    (hj : j < 4294967296) (hd : depth < 4294967296) :
    generateKey H name depth (j : Int) =
      Except.ok (H (name ++ uint32LE depth ++ uint32LE j)) := by
  have hc : 0 ≤ (j : Int) ∧ (j : Int) < 4294967296 ∧ depth < 4294967296 :=
    ⟨Int.natCast_nonneg j, by exact_mod_cast hj, hd⟩
  unfold generateKey
  rw [if_pos hc, Int.toNat_natCast]

/- readNode when key generation succeeds: one get of the string key, and the
   stored-or-empty value.  (Stated over an abstract key equation.) -/
theorem readNode_of_key (H : Bytes → Bytes) (s : Store) (name : Bytes) (depth : Nat)
    (i : Int) (k : Bytes) (hg : generateKey H name depth i = Except.ok k) :
    readNode H s name depth i =
      ([StoreOp.get (utf8RoundTrip k)],
        Except.ok (match s.lookup (utf8RoundTrip k) with
          | some v => v
          | none => emptyHash H depth)) := by
  simp only [readNode, hg, fetchCatch, dbGet]
  cases List.lookup (utf8RoundTrip k) s <;> rfl

/- readNode on an in-range natural index. -/
theorem readNode_nat (H : Bytes → Bytes) (s : Store) (name : Bytes) (depth j : Nat)
    (hj : j < 4294967296) (hd : depth < 4294967296) :
    readNode H s name depth (j : Int) =
      ([StoreOp.get (nodeKey H name depth j)], Except.ok (nodeAt H s name depth j)) :=
  readNode_of_key H s name depth (j : Int) (H (name ++ uint32LE depth ++ uint32LE j))
    (generateKey_nat H name depth j hj hd)

/- writeNode when key generation succeeds and the value is within bound. -/
theorem writeNode_of_key (H : Bytes → Bytes) (s : Store) (name : Bytes) (depth : Nat)
    (i : Int) (v : Bytes) (k : Bytes) (hg : generateKey H name depth i = Except.ok k)
    (hv : v.length ≤ 64) :
    writeNode H s name depth i v = Except.ok ((utf8RoundTrip k, v) :: s) := by
  simp only [writeNode, hg, if_neg (by omega : ¬v.length > 64)]

/- writeNode on an in-range natural index and a value within the bound. -/
theorem writeNode_nat (H : Bytes → Bytes) (s : Store) (name : Bytes) (depth j : Nat)
    (v : Bytes) (hj : j < 4294967296) (hd : depth < 4294967296) (hv : v.length ≤ 64) :
    writeNode H s name depth (j : Int) v =
      Except.ok ((nodeKey H name depth j, v) :: s) :=
  writeNode_of_key H s name depth (j : Int) v (H (name ++ uint32LE depth ++ uint32LE j))
    (generateKey_nat H name depth j hj hd) hv

/- With no leaves ever written, every node evaluates to the empty hash. -/
theorem nodeVal_nil (H : Bytes → Bytes) : ∀ l j, nodeVal H [] l j = emptyHashRec H l := by
  intro l
  induction l with
  | zero => intro j; rfl
  | succ l ih =>
    intro j
    show compress H (nodeVal H [] l (2 * j)) (nodeVal H [] l (2 * j + 1)) = _
    rw [ih (2 * j), ih (2 * j + 1)]
    rfl

/- A node whose subtree does not contain leaf i is unaffected by an update
   of leaf i. -/
theorem nodeVal_untouched (H : Bytes → Bytes) (lv : List (Nat × Bytes)) (i : Nat)
    (v : Bytes) : ∀ l j, i / 2 ^ l ≠ j →
    nodeVal H ((i, v) :: lv) l j = nodeVal H lv l j := by
  intro l
  induction l with
  | zero =>
    intro j hij
    rw [Nat.pow_zero, Nat.div_one] at hij
    show leafHash H ((i, v) :: lv) j = leafHash H lv j
    unfold leafHash
    rw [List.lookup_cons]
    have : (j == i) = false := by simp; omega
    rw [this]
  | succ l ih =>
    intro j hij
    have hdd : i / 2 ^ (l + 1) = i / 2 ^ l / 2 := by
      rw [Nat.div_div_eq_div_mul, ← pow_succ]
    show compress H (nodeVal H ((i, v) :: lv) l (2 * j)) (nodeVal H ((i, v) :: lv) l (2 * j + 1)) = _
    rw [ih (2 * j) (by intro heq; apply hij; omega),
        ih (2 * j + 1) (by intro heq; apply hij; omega)]
    rfl

/- Every node value is a digest, hence 32 bytes when digests are. -/
theorem nodeVal_len (H : Bytes → Bytes) (Hlen : ∀ b, (H b).length = 32)
    (lv : List (Nat × Bytes)) : ∀ l j, (nodeVal H lv l j).length = 32 := by
  intro l
  induction l with
  | zero =>
    intro j
    show (leafHash H lv j).length = 32
    unfold leafHash
    cases lv.lookup j with
    | some w => exact Hlen w
    | none =>
      show (emptyHashRec H 0).length = 32
      exact Hlen _
  | succ l _ =>
    intro j
    exact Hlen _

/- The parent of node j is the compress of j and its sibling, in index order. -/
theorem nodeVal_parent_even (H : Bytes → Bytes) (lv : List (Nat × Bytes)) (l j : Nat)
    (h : j % 2 = 0) :
    nodeVal H lv (l + 1) (j / 2) = compress H (nodeVal H lv l j) (nodeVal H lv l (j ^^^ 1)) := by
  show compress H (nodeVal H lv l (2 * (j / 2))) (nodeVal H lv l (2 * (j / 2) + 1)) = _
  rw [xor_one_of_even j h]
  have h2 : 2 * (j / 2) + 1 = j + 1 := by omega
  have h1 : 2 * (j / 2) = j := by omega
  rw [h2, h1]

theorem nodeVal_parent_odd (H : Bytes → Bytes) (lv : List (Nat × Bytes)) (l j : Nat)
    (h : j % 2 = 1) :
    nodeVal H lv (l + 1) (j / 2) = compress H (nodeVal H lv l (j ^^^ 1)) (nodeVal H lv l j) := by
  show compress H (nodeVal H lv l (2 * (j / 2))) (nodeVal H lv l (2 * (j / 2) + 1)) = _
  rw [xor_one_of_odd j h]
  have h2 : 2 * (j / 2) + 1 = j := by omega
  have h1 : 2 * (j / 2) = j - 1 := by omega
  rw [h2, h1]

/- The getHashPath loop, on indices below 2^31, succeeds and produces exactly
   the parity-ordered (node, sibling) pairs level by level. -/
theorem hashPathAux_ok (H : Bytes → Bytes) (s : Store) (name : Bytes) (D : Nat)
    (hD : D < 4294967296) :
    ∀ fuel level (j : Nat), j < 2147483648 →
      (hashPathAux H s name D fuel level (j : Int)).2 =
        Except.ok (pathPairs H s name D fuel level j) := by
  intro fuel
  induction fuel with
  | zero => intro level j hj; rfl
  | succ fuel ih =>
    intro level j hj
    by_cases hl : level ≥ D
    · rw [hashPathAux.eq_2, if_pos hl, pathPairs.eq_2, if_pos hl]
    · have hj32 : j < 4294967296 := by omega
      have hlD : level < 4294967296 := by omega
      have hx31 : j ^^^ 1 < 2147483648 := xor_one_lt j 31 (by omega) hj
      have hx : j ^^^ 1 < 4294967296 := by omega
      rw [hashPathAux.eq_2, if_neg hl, pathPairs.eq_2, if_neg hl]
      rw [jsXor1_natCast j hj]
      rw [readNode_nat H s name level (j ^^^ 1) hx hlD]
      rw [readNode_nat H s name level j hj32 hlD]
      rw [jsEven_natCast j hj32, jsShr1_natCast j hj]
      rcases hrec : hashPathAux H s name D fuel (level + 1) ((j / 2 : Nat) : Int) with ⟨o3, r3⟩
      have h3 := ih (level + 1) (j / 2) (by omega)
      rw [hrec] at h3
      simp only at h3
      rw [h3]
      dsimp only
      unfold pairAt
      by_cases hp : j % 2 = 0
      · simp [hp]
      · simp [hp]

/- The spec-side path has one pair per remaining level. -/
theorem pathPairs_length (H : Bytes → Bytes) (s : Store) (name : Bytes) (D : Nat) :
    ∀ fuel level (j : Nat), level + fuel ≤ D →
      (pathPairs H s name D fuel level j).length = fuel := by
  intro fuel
  induction fuel with
  | zero => intro level j _; rfl
  | succ fuel ih =>
    intro level j hle
    rw [pathPairs.eq_2, if_neg (by omega)]
    rw [List.length_cons, ih (level + 1) (j / 2) (by omega)]

/- The entry of the spec-side path at offset l is the pair for level
   (start level + l) at the index shifted down l times. -/
theorem pathPairs_getD (H : Bytes → Bytes) (s : Store) (name : Bytes) (D : Nat) :
    ∀ fuel level (j : Nat) (l : Nat), level + fuel ≤ D → l < fuel →
      (pathPairs H s name D fuel level j).getD l ([], []) =
        pairAt H s name (level + l) (j / 2 ^ l) := by
  intro fuel
  induction fuel with
  | zero => intro level j l _ hl; omega
  | succ fuel ih =>
    intro level j l hle hl
    rw [pathPairs.eq_2, if_neg (by omega)]
    cases l with
    | zero =>
      show pairAt H s name level j = pairAt H s name (level + 0) (j / 2 ^ 0)
      rw [Nat.add_zero, Nat.pow_zero, Nat.div_one]
    | succ l =>
      show (pathPairs H s name D fuel (level + 1) (j / 2)).getD l ([], []) = _
      rw [ih (level + 1) (j / 2) l (by omega) (by omega)]
      have h1 : level + 1 + l = level + (l + 1) := by omega
      have h2 : j / 2 / 2 ^ l = j / 2 ^ (l + 1) := by
        rw [Nat.div_div_eq_div_mul, ← pow_succ']
      rw [h1, h2]

/- getHashPath of an index below 2^31 succeeds with the spec-side path. -/
theorem getHashPath_ok (H : Bytes → Bytes) (s : Store) (t : MerkleTree) (i : Nat)
    (hi : i < 2147483648) (hD : t.depth < 4294967296) :
    (getHashPath H s t (i : Int)).2 =
      Except.ok (pathPairs H s t.name t.depth t.depth 0 i) := by
  unfold getHashPath
  exact hashPathAux_ok H s t.name t.depth hD t.depth 0 i hi

/- readNode performs at most one store operation, and it is a get. -/
theorem readNode_trace_gets (H : Bytes → Bytes) (s : Store) (name : Bytes)
    (depth : Nat) (i : Int) :
    ((readNode H s name depth i).1).all StoreOp.isGet = true := by
  unfold readNode
  cases generateKey H name depth i with
  | error e => rfl
  | ok k => rfl

/- A trace of gets leaves the store untouched. -/
theorem applyOps_gets (s : Store) :
    ∀ ops : List StoreOp, ops.all StoreOp.isGet = true → applyOps s ops = s := by
  intro ops
  induction ops with
  | nil => intro _; rfl
  | cons op rest ih =>
    intro h
    cases op with
    | get k =>
      show applyOps s rest = s
      exact ih (by simpa [StoreOp.isGet] using h)
    | put k v => simp [StoreOp.isGet] at h

/- Every store operation of the getHashPath loop is a get. -/
theorem hashPathAux_trace_gets (H : Bytes → Bytes) (s : Store) (name : Bytes) (D : Nat) :
    ∀ fuel level (i : Int),
      ((hashPathAux H s name D fuel level i).1).all StoreOp.isGet = true := by
  intro fuel
  induction fuel with
  | zero => intro level i; rfl
  | succ fuel ih =>
    intro level i
    rw [hashPathAux.eq_2]
    by_cases hl : level ≥ D
    · rw [if_pos hl]; rfl
    · rw [if_neg hl]
      rcases h1 : readNode H s name level (jsXor1 i) with ⟨o1, r1⟩
      have g1 : o1.all StoreOp.isGet = true := by
        have hh := readNode_trace_gets H s name level (jsXor1 i)
        rw [h1] at hh
        exact hh
      cases r1 with
      | error e => exact g1
      | ok sh =>
        rcases h2 : readNode H s name level i with ⟨o2, r2⟩
        have g2 : o2.all StoreOp.isGet = true := by
          have hh := readNode_trace_gets H s name level i
          rw [h2] at hh
          exact hh
        cases r2 with
        | error e => simp [List.all_append, g1, g2]
        | ok nh =>
          rcases h3 : hashPathAux H s name D fuel (level + 1) (jsShr1 i) with ⟨o3, r3⟩
          have g3 : o3.all StoreOp.isGet = true := by
            have hh := ih (level + 1) (jsShr1 i)
            rw [h3] at hh
            exact hh
          cases r3 with
          | error e => simp [List.all_append, g1, g2, g3]
          | ok rest => simp [List.all_append, g1, g2, g3]

/- Index arithmetic: the ancestor of an in-range leaf index stays in range. -/
theorem div_pow_lt (i D k : Nat) (hi : i < 2 ^ D) : i / 2 ^ k < 2 ^ (D - k) := by
  by_cases hk : k ≤ D
  · rw [Nat.div_lt_iff_lt_mul (Nat.pos_pow_of_pos k (by omega))]
    calc i < 2 ^ D := hi
    _ = 2 ^ (D - k) * 2 ^ k := by rw [← pow_add]; congr 1; omega
  · have h1 : i < 2 ^ k := by
      calc i < 2 ^ D := hi
      _ ≤ 2 ^ k := Nat.pow_le_pow_right (by omega) (by omega)
    rw [Nat.div_eq_of_lt h1]
    exact Nat.pos_pow_of_pos _ (by omega)

/- The second component of readNode on an in-range natural index. -/
theorem readNode_nat_snd (H : Bytes → Bytes) (s : Store) (name : Bytes) (depth j : Nat)
    (hj : j < 4294967296) (hd : depth < 4294967296) :
    (readNode H s name depth (j : Int)).2 = Except.ok (nodeAt H s name depth j) := by
  rw [readNode_nat H s name depth j hj hd]

/- Opening a tree with no metadata record: one get, then the metadata put of
   the fresh empty root (valid requested depth). -/
theorem new_fresh (H : Bytes → Bytes) (s : Store) (name : Bytes) (depth : Nat)
    (hnone : s.lookup name = none) (hd : 1 ≤ depth ∧ depth ≤ 32) :
    MerkleTree.new H s name depth =
      ([StoreOp.get name, StoreOp.put name (writeMetaData (emptyHash H depth) depth)],
        Except.ok ((name, writeMetaData (emptyHash H depth) depth) :: s,
          ⟨name, depth, emptyHash H depth⟩)) := by
  unfold MerkleTree.new
  rw [hnone]
  rw [if_pos hd]

/- Opening a tree with no metadata record and an invalid requested depth:
   the construction error, after the single get and before any put. -/
theorem new_fresh_bad (H : Bytes → Bytes) (s : Store) (name : Bytes) (depth : Nat)
    (hnone : s.lookup name = none) (hd : ¬(1 ≤ depth ∧ depth ≤ 32)) :
    MerkleTree.new H s name depth = ([StoreOp.get name], Except.error TreeError.badDepth) := by
  unfold MerkleTree.new
  rw [hnone]
  rw [if_neg hd]

/- The metadata record of a 32-byte root: root, little-endian depth, padding. -/
theorem writeMetaData_split (r : Bytes) (d : Nat) (hr : r.length = 32) :
    writeMetaData r d = r ++ uint32LE d ++ [0, 0, 0, 0] := by
  unfold writeMetaData
  have h1 : r.take 40 = r := List.take_of_length_le (by omega)
  rw [h1, hr]
  show (r ++ List.replicate 8 0).take 32 ++ uint32LE d ++ (r ++ List.replicate 8 0).drop 36 =
    r ++ uint32LE d ++ [0, 0, 0, 0]
  have h2 : (r ++ List.replicate 8 0).take 32 = r := by
    rw [List.take_append_of_le_length (by omega), List.take_of_length_le (by omega)]
  have h3 : (r ++ List.replicate 8 0).drop 36 = [0, 0, 0, 0] := by
    rw [List.drop_append_eq_append_drop, List.drop_eq_nil_of_le (by omega), hr]
    rfl
  rw [h2, h3]

theorem meta_take32 (r : Bytes) (d : Nat) (hr : r.length = 32) :
    (r ++ uint32LE d ++ [0, 0, 0, 0]).take 32 = r := by
  rw [List.append_assoc, List.take_append_of_le_length (by omega),
    List.take_of_length_le (by omega)]

theorem meta_readDepth (r : Bytes) (d : Nat) (hr : r.length = 32) (hd : d < 4294967296) :
    readUInt32LE (r ++ uint32LE d ++ [0, 0, 0, 0]) 32 = d := by
  unfold readUInt32LE
  rw [List.append_assoc]
  have e0 : (r ++ (uint32LE d ++ [0, 0, 0, 0])).getD 32 0 = d % 256 := by
    rw [List.getD_append_right r _ 0 32 (by omega), hr]
    rfl
  have e1 : (r ++ (uint32LE d ++ [0, 0, 0, 0])).getD 33 0 = d / 256 % 256 := by
    rw [List.getD_append_right r _ 0 33 (by omega), hr]
    rfl
  have e2 : (r ++ (uint32LE d ++ [0, 0, 0, 0])).getD 34 0 = d / 65536 % 256 := by
    rw [List.getD_append_right r _ 0 34 (by omega), hr]
    rfl
  have e3 : (r ++ (uint32LE d ++ [0, 0, 0, 0])).getD 35 0 = d / 16777216 % 256 := by
    rw [List.getD_append_right r _ 0 35 (by omega), hr]
    rfl
  rw [e0, e1, e2, e3]
  omega

/- Opening a tree whose metadata record is present: the persisted root and
   depth win, the requested depth is ignored, and only the get is performed. -/
theorem new_existing (H : Bytes → Bytes) (s : Store) (name : Bytes)
    (depthReq : Nat) (r : Bytes) (d : Nat) (hr : r.length = 32) (hd1 : 1 ≤ d)
    (hd2 : d ≤ 32) (hsome : s.lookup name = some (r ++ uint32LE d ++ [0, 0, 0, 0])) :
    MerkleTree.new H s name depthReq = ([StoreOp.get name], Except.ok (s, ⟨name, d, r⟩)) := by
  unfold MerkleTree.new
  rw [hsome]
  dsimp only
  rw [meta_take32 r d hr, meta_readDepth r d hr (by omega), if_pos ⟨hd1, hd2⟩]

/- A prepended entry under a different key does not change a node read. -/
theorem nodeAt_cons_ne (H : Bytes → Bytes) (s : Store) (name : Bytes) (k w : Bytes)
    (l j : Nat) (hne : nodeKey H name l j ≠ k) :
    nodeAt H ((k, w) :: s) name l j = nodeAt H s name l j := by
  unfold nodeAt
  rw [List.lookup_cons]
  have hb : (nodeKey H name l j == k) = false := by simp [hne]
  rw [hb]

/- The update walk with an in-range index below 2^31 always succeeds (all it
   ever writes are 32-byte digests, far below the 64-byte bound). -/
theorem updateLoopAux_ok (H : Bytes → Bytes) (name : Bytes) (D : Nat)
    (Hlen : ∀ b, (H b).length = 32) (hD : D < 4294967296) :
    ∀ fuel (s : Store) (level : Nat) (j : Nat) (h : Bytes), level ≤ D →
      j < 2147483648 →
      isOkE (updateLoopAux H name D fuel s level (j : Int) h).2 = true := by
  intro fuel
  induction fuel with
  | zero => intro s level j h _ _; rfl
  | succ fuel ih =>
    intro s level j h hle hj31
    rw [updateLoopAux.eq_2, if_neg (by omega : ¬level > D)]
    have hx31 : j ^^^ 1 < 2147483648 := xor_one_lt j 31 (by omega) hj31
    rw [jsXor1_natCast j hj31]
    rw [readNode_nat_snd H s name (level - 1) (j ^^^ 1) (by omega) (by omega)]
    dsimp only
    rw [jsEven_natCast j (by omega), jsShr1_natCast j hj31]
    set sib := nodeAt H s name (level - 1) (j ^^^ 1) with hsib
    set h2 := if (decide (j % 2 = 0)) = true then compress H h sib else compress H sib h with hh2
    have hlen2 : h2.length = 32 := by
      rw [hh2]
      by_cases hp : j % 2 = 0 <;> simp [hp, compress, Hlen]
    have hw := writeNode_nat H s name level (j / 2) h2 (by omega) (by omega) (by omega)
    rw [hw]
    dsimp only
    by_cases hDl : level = D
    · have hf : ∀ f s3, isOkE (updateLoopAux H name D f s3 (level + 1) ((j / 2 : Nat) : Int) h2).2 = true := by
        intro f s3
        cases f with
        | zero => rfl
        | succ f => rw [updateLoopAux.eq_2, if_pos (by omega : level + 1 > D)]; rfl
      exact hf fuel _
    · exact ih _ (level + 1) (j / 2) h2 (by omega) (by omega)

/- The update walk, entered at level 1 with an in-range index, ends with the
   final digest stored under the node key of (depth, 0). -/
theorem updateLoopAux_root (H : Bytes → Bytes) (name : Bytes) (D : Nat)
    (Hlen : ∀ b, (H b).length = 32) (hD : D < 4294967296) :
    ∀ fuel (s : Store) (level : Nat) (j : Nat) (h : Bytes),
      fuel + level = D + 1 → 1 ≤ level → level ≤ D →
      j < 2 ^ (D + 1 - level) → j < 2147483648 →
      ∃ s2 h2, updateLoopAux H name D fuel s level (j : Int) h = (s2, Except.ok h2) ∧
        h2.length = 32 ∧ s2.lookup (nodeKey H name D 0) = some h2 := by
  intro fuel
  induction fuel with
  | zero => intro s level j h hf h1 hle hj hj31; omega
  | succ fuel ih =>
    intro s level j h hf h1 hle hj hj31
    rw [updateLoopAux.eq_2, if_neg (by omega : ¬level > D)]
    have hx31 : j ^^^ 1 < 2147483648 := xor_one_lt j 31 (by omega) hj31
    rw [jsXor1_natCast j hj31]
    rw [readNode_nat_snd H s name (level - 1) (j ^^^ 1) (by omega) (by omega)]
    dsimp only
    rw [jsEven_natCast j (by omega), jsShr1_natCast j hj31]
    set sib := nodeAt H s name (level - 1) (j ^^^ 1) with hsib
    set h2 := if (decide (j % 2 = 0)) = true then compress H h sib else compress H sib h with hh2
    have hlen2 : h2.length = 32 := by
      rw [hh2]
      by_cases hp : j % 2 = 0 <;> simp [hp, compress, Hlen]
    have hw := writeNode_nat H s name level (j / 2) h2 (by omega) (by omega) (by omega)
    rw [hw]
    dsimp only
    by_cases hDl : level = D
    · have hf0 : fuel = 0 := by omega
      subst hf0
      rw [updateLoopAux.eq_1]
      refine ⟨_, h2, rfl, hlen2, ?_⟩
      have hj0 : j / 2 = 0 := by
        have hj2 : j < 2 := by
          have he : D + 1 - level = 1 := by omega
          rw [he] at hj
          omega
        omega
      rw [List.lookup_cons]
      have hb : (nodeKey H name D 0 == nodeKey H name level (j / 2)) = true := by
        rw [hDl, hj0]
        exact beq_self_eq_true _
      rw [hb]
    · have hrec := ih ((nodeKey H name level (j / 2), h2) :: s) (level + 1) (j / 2) h2
        (by omega) (by omega) (by omega)
        (by
          have hpow : 2 ^ (D + 1 - level) = 2 * 2 ^ (D + 1 - (level + 1)) := by
            rw [← pow_succ']
            congr 1
            omega
          omega)
        (by omega)
      obtain ⟨s2, hh, heq, hl2, hlk⟩ := hrec
      exact ⟨s2, hh, heq, hl2, hlk⟩

/- updateElement with an index below 2^31 succeeds whatever the payload is:
   the leaf write stores the 32-byte digest of the payload, so the 64-byte
   bound of writeNode never fires. -/
theorem updateElement_ok (H : Bytes → Bytes) (s : Store) (t : MerkleTree)
    (i : Nat) (v : Bytes) (Hlen : ∀ b, (H b).length = 32)
    (hd32 : t.depth < 4294967296) (hi31 : i < 2147483648) :
    isOkE (updateElement H s t (i : Int) v).2.2 = true := by
  unfold updateElement
  dsimp only
  have hw0 := writeNode_nat H s t.name 0 i (H v) (by omega) (by omega) (by rw [Hlen]; omega)
  rw [hw0]
  dsimp only
  have hloop := updateLoopAux_ok H t.name t.depth Hlen hd32 t.depth
    ((nodeKey H t.name 0 i, H v) :: s) 1 i (H v)
  rcases hl : updateLoopAux H t.name t.depth t.depth
      ((nodeKey H t.name 0 i, H v) :: s) 1 (i : Int) (H v) with ⟨s2, r2⟩
  cases r2 with
  | error e =>
    by_cases hD0 : t.depth = 0
    · rw [hD0] at hl
      rw [updateLoopAux.eq_1] at hl
      exact absurd (congrArg Prod.snd hl) (by simp)
    · have := hloop (by omega) hi31
      rw [hl] at this
      simp [isOkE] at this
  | ok r => rfl

/- updateElement with an in-range index below 2^31: the new root is written
   under the node key of (depth, 0), the metadata record is prepended, and
   the tree's root field becomes the returned digest. -/
theorem updateElement_root (H : Bytes → Bytes) (s : Store) (t : MerkleTree)
    (i : Nat) (v : Bytes) (Hlen : ∀ b, (H b).length = 32)
    (hd1 : 1 ≤ t.depth) (hd32 : t.depth < 4294967296)
    (hiD : i < 2 ^ t.depth) (hi31 : i < 2147483648) :
    ∃ s2 r, updateElement H s t (i : Int) v =
        ((t.name, writeMetaData r t.depth) :: s2, { t with root := r }, Except.ok r) ∧
      r.length = 32 ∧ s2.lookup (nodeKey H t.name t.depth 0) = some r := by
  unfold updateElement
  dsimp only
  have hw0 := writeNode_nat H s t.name 0 i (H v) (by omega) (by omega) (by rw [Hlen]; omega)
  rw [hw0]
  dsimp only
  obtain ⟨s2, r, heq, hlen, hlk⟩ := updateLoopAux_root H t.name t.depth Hlen hd32 t.depth
    ((nodeKey H t.name 0 i, H v) :: s) 1 i (H v) (by omega) (by omega) (by omega)
    (by
      have he : t.depth + 1 - 1 = t.depth := by omega
      rw [he]
      exact hiD) hi31
  rw [heq]
  exact ⟨s2, r, rfl, hlen, hlk⟩

/- updateElement with an index in [2^31, 2^32) writes the leaf digest and then
   throws: the sibling index coerces to a negative 32-bit value, which the
   key derivation rejects.  The tree's root field is untouched. -/
theorem updateElement_big (H : Bytes → Bytes) (s : Store) (t : MerkleTree)
    (i : Nat) (v : Bytes) (Hlen : ∀ b, (H b).length = 32) (hd1 : 1 ≤ t.depth)
    (hi : 2147483648 ≤ i) (hi32 : i < 4294967296) :
    updateElement H s t (i : Int) v =
      ((nodeKey H t.name 0 i, H v) :: s, t, Except.error TreeError.outOfRange) := by
  unfold updateElement
  dsimp only
  have hw0 := writeNode_nat H s t.name 0 i (H v) (by omega) (by omega) (by rw [Hlen]; omega)
  rw [hw0]
  dsimp only
  obtain ⟨d, hd⟩ : ∃ d, t.depth = d + 1 := ⟨t.depth - 1, by omega⟩
  rw [hd]
  rw [updateLoopAux.eq_2, if_neg (by omega : ¬1 > d + 1)]
  have hneg : jsXor1 (i : Int) < 0 := jsXor1_neg i hi hi32
  have hrn : (readNode H ((nodeKey H t.name 0 i, H v) :: s) t.name (1 - 1) (jsXor1 (i : Int))).2 =
      Except.error TreeError.outOfRange := by
    unfold readNode generateKey
    rw [if_neg (by omega)]
  rw [hrn]

/- The root invariant: through any sequence of updateElement calls with
   indices in range (including calls that throw on indices at or above 2^31),
   the stored-or-virtual node at (depth, 0) stays equal to the root field. -/
theorem applyUpdates_rootInv (H : Bytes → Bytes) (name : Bytes) (D : Nat)
    (Hlen : ∀ b, (H b).length = 32) (hD1 : 1 ≤ D) (hD32 : D ≤ 32)
    (HInj : KeyInjOn H name D) (HName : KeyNameFree H name D) :
    ∀ us (s : Store) (t : MerkleTree), t.name = name → t.depth = D →
      nodeAt H s name D 0 = getRoot t →
      (∀ u ∈ us, 0 ≤ u.1 ∧ u.1 < (2 ^ D : Int)) →
      (applyUpdates H (s, t) us).2.1.name = name ∧
        (applyUpdates H (s, t) us).2.1.depth = D ∧
        nodeAt H (applyUpdates H (s, t) us).1 name D 0 =
          getRoot (applyUpdates H (s, t) us).2.1 := by
  intro us
  induction us with
  | nil =>
    intro s t hn hd hroot _
    exact ⟨hn, hd, hroot⟩
  | cons u rest ih =>
    intro s t hn hd hroot hb
    obtain ⟨hu0, huD⟩ := hb u (List.mem_cons_self u rest)
    have hbrest : ∀ w ∈ rest, 0 ≤ w.1 ∧ w.1 < (2 ^ D : Int) :=
      fun w hw => hb w (List.mem_cons_of_mem u hw)
    obtain ⟨i, v⟩ := u
    have hiNat : i = ((i.toNat : Nat) : Int) := by omega
    have hiD : i.toNat < 2 ^ D := by
      have h2 : ((2 : Int) ^ D) = ((2 ^ D : Nat) : Int) := by push_cast; ring
      omega
    have h2D32 : (2 : Nat) ^ D ≤ 2 ^ 32 := Nat.pow_le_pow_right (by omega) hD32
    have hkey : nodeKey H name D 0 ≠ name :=
      HName D (by omega) 0 (by simp)
    rw [applyUpdates.eq_2]
    dsimp only
    by_cases hi31 : i.toNat < 2147483648
    · obtain ⟨s2, r, heq, hlen, hlk⟩ := updateElement_root H s t i.toNat v Hlen
        (by omega) (by omega) (by rw [hd]; exact hiD) hi31
      rw [← hiNat] at heq
      rw [heq]
      dsimp only
      refine ih _ _ (by simpa using hn) (by simpa using hd) ?_ hbrest
      show nodeAt H ((t.name, writeMetaData r t.depth) :: s2) name D 0 = r
      rw [hn]
      rw [nodeAt_cons_ne H s2 name name (writeMetaData r t.depth) D 0 hkey]
      unfold nodeAt
      rw [hn, hd] at hlk
      rw [hlk]
    · have hi32 : i.toNat < 4294967296 := by
        have : (2 : Nat) ^ D ≤ 4294967296 := h2D32
        omega
      have heq := updateElement_big H s t i.toNat v Hlen (by omega) (by omega) hi32
      rw [← hiNat] at heq
      rw [heq]
      dsimp only
      refine ih _ _ hn hd ?_ hbrest
      rw [← hroot]
      apply nodeAt_cons_ne
      intro hk
      rw [hn] at hk
      have hne := HInj D (by omega) 0 (by simp) 0 (by omega) i.toNat
        (by
          have : D - 0 = D := by omega
          rw [this]
          exact hiD) hk
      omega

/- The concrete witness digest function returns 32 bytes on every input. -/
theorem Hw_len : ∀ b, (Hw b).length = 32 := by
  intro b
  unfold Hw
  rw [List.length_take, List.length_append, List.length_map, List.length_replicate]
  omega

/-- C3: a freshly created tree of depth D in [1, 32] — no metadata record under
its name — has getRoot() equal to emptyHashRec H D, the canonical
empty-subtree hash with emptyHashRec 0 the hash of 64 zero bytes and each
level the compress of two copies of the level below. -/
theorem claim3_empty_tree_root (H : Bytes → Bytes) (s : Store) (name : Bytes)
    (D : Nat) (s1 : Store) (t : MerkleTree)
    (hnone : s.lookup name = none) (hd : 1 ≤ D ∧ D ≤ 32)
    (hnew : (MerkleTree.new H s name D).2 = Except.ok (s1, t)) :
    getRoot t = emptyHashRec H D := by
  rw [new_fresh H s name D hnone hd] at hnew
  simp only [Except.ok.injEq, Prod.mk.injEq] at hnew
  rw [← hnew.2]
  exact emptyHash_eq_rec H D

theorem claim3_witness :
    (([] : Store).lookup [116] = none ∧ (1 ≤ 2 ∧ 2 ≤ 32) ∧
      (MerkleTree.new Hw [] [116] 2).2 =
        Except.ok ([([116], writeMetaData (emptyHash Hw 2) 2)],
          ⟨[116], 2, emptyHash Hw 2⟩)) ∧
    getRoot ⟨[116], 2, emptyHash Hw 2⟩ = emptyHashRec Hw 2 :=
  ⟨⟨rfl, by decide, by decide⟩,
    claim3_empty_tree_root Hw [] [116] 2 [([116], writeMetaData (emptyHash Hw 2) 2)]
      ⟨[116], 2, emptyHash Hw 2⟩ rfl (by decide) (by decide)⟩

/-- C4 counterexample: with a metadata record of persisted depth 5 present
under the name, open-or-create with requested depth 0 succeeds rather than
failing; and on the path that does fail (no metadata, requested depth 0) the
operation trace already contains the metadata get, so the failure is not
prior to all store access. -/
theorem claim4_counterexample :
    isOkE (MerkleTree.new Hw [([116], writeMetaData (List.replicate 32 0) 5)] [116] 0).2 = true ∧
    (MerkleTree.new Hw [] [116] 0).2 = Except.error TreeError.badDepth ∧
    (MerkleTree.new Hw [] [116] 0).1 = [StoreOp.get [116]] := by decide

/-- C4 (amended): when no metadata record exists under the name, open-or-create
with a requested depth outside [1, 32] fails with the construction error, and
its operation trace is exactly the single metadata get — the get precedes the
validation, and no put is performed.  (When a metadata record exists, the
requested depth is ignored in favour of the persisted one.) -/
theorem claim4_construction_error (H : Bytes → Bytes) (s : Store) (name : Bytes)
    (depth : Nat) (hnone : s.lookup name = none)
    (hbad : ¬(1 ≤ depth ∧ depth ≤ 32)) :
    MerkleTree.new H s name depth = ([StoreOp.get name], Except.error TreeError.badDepth) :=
  new_fresh_bad H s name depth hnone hbad

theorem claim4_witness :
    (([] : Store).lookup [116] = none ∧ ¬(1 ≤ 0 ∧ 0 ≤ 32)) ∧
    MerkleTree.new Hw [] [116] 0 = ([StoreOp.get [116]], Except.error TreeError.badDepth) :=
  ⟨⟨rfl, by decide⟩, claim4_construction_error Hw [] [116] 0 rfl (by decide)⟩

/-- C5 counterexample: with a digest function whose digests are 32 bytes of
0x80, writeNode does not store the node under the digest
hash(name ++ level-LE4 ++ index-LE4): the key actually used is the UTF-8
round-trip of the digest, which replaces every 0x80 byte. -/
theorem claim5_counterexample :
    writeNode Hmang [] [116] 0 0 [] ≠
      Except.ok [(Hmang ([116] ++ uint32LE 0 ++ uint32LE 0), [])] ∧
    writeNode Hmang [] [116] 0 0 [] =
      Except.ok [(utf8RoundTrip (Hmang ([116] ++ uint32LE 0 ++ uint32LE 0)), [])] := by
  decide

/-- C5 (amended): the store key for node (level, index) of a named tree is the
UTF-8 round-trip (Buffer.toString) of the digest
hash(name ++ level-LE4 ++ index-LE4); writeNode puts and readNode gets under
exactly that key — a deterministic function of (name, level, index) — and
whenever the digest is pure ASCII the key is the digest itself. -/
theorem claim5_node_key (H : Bytes → Bytes) (s : Store) (name : Bytes)
    (level index : Nat) (v : Bytes) (hL : level < 4294967296)
    (hI : index < 4294967296) (hv : v.length ≤ 64)
    (hascii : ∀ b ∈ H (name ++ uint32LE level ++ uint32LE index), b < 128) :
    writeNode H s name level (index : Int) v =
      Except.ok ((utf8RoundTrip (H (name ++ uint32LE level ++ uint32LE index)), v) :: s) ∧
    (readNode H s name level (index : Int)).1 =
      [StoreOp.get (utf8RoundTrip (H (name ++ uint32LE level ++ uint32LE index)))] ∧
    utf8RoundTrip (H (name ++ uint32LE level ++ uint32LE index)) =
      H (name ++ uint32LE level ++ uint32LE index) := by
  refine ⟨writeNode_nat H s name level index v hI hL hv, ?_, utf8RoundTrip_ascii _ hascii⟩
  rw [readNode_nat H s name level index hI hL]
  rfl

theorem claim5_witness :
    ((0 : Nat) < 4294967296 ∧ ([] : Bytes).length ≤ 64 ∧
      (∀ b ∈ Hw ([116] ++ uint32LE 0 ++ uint32LE 0), b < 128)) ∧
    utf8RoundTrip (Hw ([116] ++ uint32LE 0 ++ uint32LE 0)) =
      Hw ([116] ++ uint32LE 0 ++ uint32LE 0) :=
  ⟨⟨by decide, by decide, by decide⟩,
    (claim5_node_key Hw [] [116] 0 0 [] (by decide) (by decide) (by decide) (by decide)).2.2⟩

/-- C8: readNode returns the stored value when the store fetch finds the key,
the empty-subtree hash of the level when the key is absent, and the catch
block maps every fetch failure — an arbitrary store error just like a genuine
not-found — to the empty-subtree hash, so no fetch error reaches the caller. -/
theorem claim8_read_failures (H : Bytes → Bytes) (s1 s2 : Store) (name : Bytes)
    (level j : Nat) (v : Bytes) (e : TreeError)
    (hl : level < 4294967296) (hj : j < 4294967296)
    (hfound : s1.lookup (nodeKey H name level j) = some v)
    (habsent : s2.lookup (nodeKey H name level j) = none) :
    (readNode H s1 name level (j : Int)).2 = Except.ok v ∧
    (readNode H s2 name level (j : Int)).2 = Except.ok (emptyHash H level) ∧
    fetchCatch H level (Except.error e) = emptyHash H level := by
  refine ⟨?_, ?_, rfl⟩
  · rw [readNode_nat_snd H s1 name level j hj hl]
    unfold nodeAt
    rw [hfound]
  · rw [readNode_nat_snd H s2 name level j hj hl]
    unfold nodeAt
    rw [habsent]

theorem claim8_witness :
    ((0 : Nat) < 4294967296 ∧
      ([(nodeKey Hw [116] 0 0, [7])] : Store).lookup (nodeKey Hw [116] 0 0) = some [7] ∧
      ([] : Store).lookup (nodeKey Hw [116] 0 0) = none) ∧
    (readNode Hw [(nodeKey Hw [116] 0 0, [7])] [116] 0 ((0 : Nat) : Int)).2 = Except.ok [7] ∧
    (readNode Hw [] [116] 0 ((0 : Nat) : Int)).2 = Except.ok (emptyHash Hw 0) ∧
    fetchCatch Hw 0 (Except.error TreeError.notFound) = emptyHash Hw 0 :=
  ⟨⟨by decide, by decide, by decide⟩,
    claim8_read_failures Hw [(nodeKey Hw [116] 0 0, [7])] [] [116] 0 0 [7]
      TreeError.notFound (by decide) (by decide) (by decide) (by decide)⟩

/-- C10: the read-only operations are pure towards the store: every operation
in the traces of readNode and getHashPath is a get (never a put and never a
metadata write), replaying those traces leaves any store unchanged, and
getRoot is the root field itself, touching no store at all. -/
theorem claim10_reads_pure (H : Bytes → Bytes) (s : Store) (t : MerkleTree)
    (name : Bytes) (level : Nat) (i i2 : Int) :
    ((readNode H s name level i).1).all StoreOp.isGet = true ∧
    applyOps s ((readNode H s name level i).1) = s ∧
    ((getHashPath H s t i2).1).all StoreOp.isGet = true ∧
    applyOps s ((getHashPath H s t i2).1) = s ∧
    getRoot t = t.root := by
  have h1 := readNode_trace_gets H s name level i
  have h2 := hashPathAux_trace_gets H s t.name t.depth t.depth 0 i2
  exact ⟨h1, applyOps_gets s _ h1, h2, applyOps_gets s _ h2, rfl⟩

instance keyInjOnDec (H : Bytes → Bytes) (name : Bytes) (D : Nat) :
    Decidable (KeyInjOn H name D) := by
  unfold KeyInjOn
  apply Nat.decidableBallLT

instance keyNameFreeDec (H : Bytes → Bytes) (name : Bytes) (D : Nat) :
    Decidable (KeyNameFree H name D) := by
  unfold KeyNameFree
  apply Nat.decidableBallLT

instance keyFreshForDec (H : Bytes → Bytes) (name : Bytes) (D : Nat) (s : Store) :
    Decidable (KeyFreshFor H name D s) := by
  unfold KeyFreshFor
  apply Nat.decidableBallLT

/-- C7: in every state reachable from a freshly created depth-D tree by a
sequence of updateElement calls with indices in [0, 2^D) — including calls
that throw on indices at or above 2^31 — readNode at (depth, 0) returns
exactly getRoot(), given 32-byte digests and collision-free node keys. -/
theorem claim7_root_invariant (H : Bytes → Bytes) (s0 : Store) (name : Bytes)
    (D : Nat) (s1 : Store) (t1 : MerkleTree) (us : List (Int × Bytes))
    (Hlen : ∀ b, (H b).length = 32) (hd : 1 ≤ D ∧ D ≤ 32)
    (HInj : KeyInjOn H name D) (HName : KeyNameFree H name D)
    (HFresh : KeyFreshFor H name D s0)
    (hnone : s0.lookup name = none)
    (hnew : (MerkleTree.new H s0 name D).2 = Except.ok (s1, t1))
    (hb : ∀ u ∈ us, 0 ≤ u.1 ∧ u.1 < (2 ^ D : Int)) :
    (readNode H (applyUpdates H (s1, t1) us).1 (applyUpdates H (s1, t1) us).2.1.name
        (applyUpdates H (s1, t1) us).2.1.depth ((0 : Nat) : Int)).2 =
      Except.ok (getRoot (applyUpdates H (s1, t1) us).2.1) := by
  rw [new_fresh H s0 name D hnone hd] at hnew
  simp only [Except.ok.injEq, Prod.mk.injEq] at hnew
  obtain ⟨hs1, ht1⟩ := hnew
  have hkey : nodeKey H name D 0 ≠ name := HName D (by omega) 0 (by simp)
  have hbase : nodeAt H s1 name D 0 = getRoot t1 := by
    rw [← hs1, ← ht1]
    rw [nodeAt_cons_ne H s0 name name _ D 0 hkey]
    unfold nodeAt
    rw [HFresh D (by omega) 0 (by simp)]
    rfl
  obtain ⟨hn, hdp, hroot⟩ := applyUpdates_rootInv H name D Hlen hd.1 hd.2 HInj HName
    us s1 t1 (by rw [← ht1]) (by rw [← ht1]) hbase hb
  rw [hn, hdp]
  rw [readNode_nat_snd H _ name D 0 (by omega) (by omega)]
  rw [hroot]

theorem claim7_witness :
    ((∀ b, (Hw b).length = 32) ∧ (1 ≤ 1 ∧ 1 ≤ 32) ∧ KeyInjOn Hw [116] 1 ∧
      KeyNameFree Hw [116] 1 ∧ KeyFreshFor Hw [116] 1 [] ∧
      ([] : Store).lookup [116] = none ∧
      (∀ u ∈ [((0 : Int), [1, 2, 3])], 0 ≤ u.1 ∧ u.1 < ((2 : Int) ^ 1))) ∧
    (readNode Hw
        (applyUpdates Hw ([([116], writeMetaData (emptyHash Hw 1) 1)],
          ⟨[116], 1, emptyHash Hw 1⟩) [((0 : Int), [1, 2, 3])]).1
        (applyUpdates Hw ([([116], writeMetaData (emptyHash Hw 1) 1)],
          ⟨[116], 1, emptyHash Hw 1⟩) [((0 : Int), [1, 2, 3])]).2.1.name
        (applyUpdates Hw ([([116], writeMetaData (emptyHash Hw 1) 1)],
          ⟨[116], 1, emptyHash Hw 1⟩) [((0 : Int), [1, 2, 3])]).2.1.depth
        ((0 : Nat) : Int)).2 =
      Except.ok (getRoot (applyUpdates Hw ([([116], writeMetaData (emptyHash Hw 1) 1)],
        ⟨[116], 1, emptyHash Hw 1⟩) [((0 : Int), [1, 2, 3])]).2.1) :=
  ⟨⟨Hw_len, by decide, by decide, by decide,
      by decide, rfl, by decide⟩,
    claim7_root_invariant Hw [] [116] 1 [([116], writeMetaData (emptyHash Hw 1) 1)]
      ⟨[116], 1, emptyHash Hw 1⟩ [((0 : Int), [1, 2, 3])] Hw_len (by decide)
      (by decide) (by decide)
      (by decide) rfl (by decide) (by decide)⟩

/- A successful update walk returns a 32-byte digest (the value it was last
   given or a compress output). -/
theorem updateLoopAux_len (H : Bytes → Bytes) (name : Bytes) (D : Nat)
    (Hlen : ∀ b, (H b).length = 32) :
    ∀ fuel (s : Store) (level : Nat) (ix : Int) (h : Bytes), h.length = 32 →
      ∀ s2 r, updateLoopAux H name D fuel s level ix h = (s2, Except.ok r) →
        r.length = 32 := by
  intro fuel
  induction fuel with
  | zero =>
    intro s level ix h hh s2 r heq
    rw [updateLoopAux.eq_1] at heq
    simp only [Prod.mk.injEq, Except.ok.injEq] at heq
    rw [← heq.2]
    exact hh
  | succ fuel ih =>
    intro s level ix h hh s2 r heq
    rw [updateLoopAux.eq_2] at heq
    by_cases hl : level > D
    · rw [if_pos hl] at heq
      simp only [Prod.mk.injEq, Except.ok.injEq] at heq
      rw [← heq.2]
      exact hh
    · rw [if_neg hl] at heq
      rcases hrn : (readNode H s name (level - 1) (jsXor1 ix)).2 with e | sib
      · rw [hrn] at heq
        simp at heq
      · rw [hrn] at heq
        dsimp only at heq
        rcases hw : writeNode H s name level (jsShr1 ix)
            (if jsEven ix = true then compress H h sib else compress H sib h) with e | s3
        · rw [hw] at heq
          simp at heq
        · rw [hw] at heq
          dsimp only at heq
          refine ih s3 (level + 1) (jsShr1 ix) _ ?_ s2 r heq
          by_cases hp : jsEven ix = true <;> simp [hp, compress, Hlen]

/- Any successful updateElement ends by prepending the metadata record of the
   returned root and leaves the tree fields unchanged apart from the root. -/
theorem updateElement_shape (H : Bytes → Bytes) (s : Store) (t : MerkleTree)
    (i : Int) (v : Bytes) (s2 : Store) (t2 : MerkleTree) (r : Bytes)
    (Hlen : ∀ b, (H b).length = 32)
    (hup : updateElement H s t i v = (s2, t2, Except.ok r)) :
    (∃ s3, s2 = (t.name, writeMetaData r t.depth) :: s3) ∧
      t2 = { t with root := r } ∧ r.length = 32 := by
  unfold updateElement at hup
  dsimp only at hup
  rcases hw : writeNode H s t.name 0 i (H v) with e | s1
  · rw [hw] at hup
    simp at hup
  · rw [hw] at hup
    dsimp only at hup
    rcases hl : updateLoopAux H t.name t.depth t.depth s1 1 i (H v) with ⟨sl, rl⟩
    rw [hl] at hup
    cases rl with
    | error e => simp at hup
    | ok hfin =>
      dsimp only at hup
      simp only [Prod.mk.injEq, Except.ok.injEq] at hup
      obtain ⟨h1, h2, h3⟩ := hup
      have hlen := updateLoopAux_len H t.name t.depth Hlen t.depth s1 1 i (H v)
        (Hlen v) sl hfin hl
      rw [h3] at hlen
      refine ⟨⟨sl, ?_⟩, ?_, hlen⟩
      · rw [← h1, h3]
      · rw [← h2, h3]

/-- C9: after a successful updateElement, reopening the tree by its name
against the resulting store — with any requested depth — performs only the
metadata get and yields a tree with exactly the persisted root and depth,
through the 40-byte metadata record (32-byte root, 4-byte little-endian
depth, 4 padding bytes). -/
theorem claim9_persistence (H : Bytes → Bytes) (s : Store) (t : MerkleTree)
    (i : Int) (v : Bytes) (s2 : Store) (t2 : MerkleTree) (r : Bytes)
    (d2 : Nat) (Hlen : ∀ b, (H b).length = 32) (hd : 1 ≤ t.depth ∧ t.depth ≤ 32)
    (hup : updateElement H s t i v = (s2, t2, Except.ok r)) :
    MerkleTree.new H s2 t.name d2 =
      ([StoreOp.get t.name], Except.ok (s2, ⟨t.name, t2.depth, getRoot t2⟩)) ∧
    t2.depth = t.depth := by
  obtain ⟨⟨s3, hs2⟩, ht2, hr⟩ := updateElement_shape H s t i v s2 t2 r Hlen hup
  have hdep : t2.depth = t.depth := by rw [ht2]
  have hroot : getRoot t2 = r := by
    rw [ht2]
    rfl
  refine ⟨?_, hdep⟩
  rw [hdep, hroot]
  have hlk : s2.lookup t.name = some (r ++ uint32LE t.depth ++ [0, 0, 0, 0]) := by
    rw [hs2, List.lookup_cons]
    rw [beq_self_eq_true]
    rw [writeMetaData_split r t.depth hr]
  exact new_existing H s2 t.name d2 r t.depth hr hd.1 hd.2 hlk

/- Concrete states used by witnesses and counterexamples: the fresh depth-1
   and depth-32 trees over the concrete digest function, and one update. -/
def w1Store : Store := [([116], writeMetaData (emptyHash Hw 1) 1)]

def w1Tree : MerkleTree := ⟨[116], 1, emptyHash Hw 1⟩

def w32Store : Store := [([116], writeMetaData (emptyHash Hw 32) 32)]

def w32Tree : MerkleTree := ⟨[116], 32, emptyHash Hw 32⟩

def c9up : Store × MerkleTree × Except TreeError Bytes :=
  updateElement Hw w1Store w1Tree 0 [5]

def c9root : Bytes := okD c9up.2.2 []

theorem claim9_witness :
    ((∀ b, (Hw b).length = 32) ∧ (1 ≤ 1 ∧ 1 ≤ 32) ∧
      updateElement Hw w1Store w1Tree 0 [5] = (c9up.1, c9up.2.1, Except.ok c9root)) ∧
    (MerkleTree.new Hw c9up.1 [116] 32 =
        ([StoreOp.get [116]], Except.ok (c9up.1, ⟨[116], c9up.2.1.depth, getRoot c9up.2.1⟩)) ∧
      c9up.2.1.depth = 1) :=
  ⟨⟨Hw_len, by decide, by decide⟩,
    claim9_persistence Hw w1Store w1Tree 0 [5] c9up.1 c9up.2.1 c9root 32
      Hw_len (by decide) (by decide)⟩

/-- C2 counterexample: on a fresh depth-1 tree, updateElement at index 0 with
a 65-byte payload succeeds and returns a new root, instead of failing with the
value-length error: the 64-byte bound is tested against the 32-byte leaf
digest, never against the raw payload. -/
theorem claim2_counterexample :
    (MerkleTree.new Hw [] [116] 1).2 = Except.ok (w1Store, w1Tree) ∧
    isOkE (updateElement Hw w1Store w1Tree 0 (List.replicate 65 7)).2.2 = true := by
  decide

/-- C2 (amended): for any index below 2^31, updateElement succeeds for a
payload of any length — 64 bytes, 65 bytes or more — because what it writes
at the leaf is the 32-byte digest of the payload; the value-length error
belongs to writeNode, which rejects any value longer than 64 bytes. -/
theorem claim2_value_length (H : Bytes → Bytes) (s s2 : Store) (t : MerkleTree)
    (i : Nat) (v big : Bytes) (name2 : Bytes) (l2 j2 : Nat)
    (Hlen : ∀ b, (H b).length = 32) (hd32 : t.depth < 4294967296)
    (hi : i < 2147483648) (hbig : big.length > 64) :
    isOkE (updateElement H s t (i : Int) v).2.2 = true ∧
    writeNode H s2 name2 l2 (j2 : Int) big = Except.error TreeError.badLeafValue := by
  refine ⟨updateElement_ok H s t i v Hlen hd32 hi, ?_⟩
  unfold writeNode
  rw [if_pos hbig]

theorem claim2_witness :
    ((∀ b, (Hw b).length = 32) ∧ (1 : Nat) < 4294967296 ∧ (0 : Nat) < 2147483648 ∧
      (List.replicate 65 7 : Bytes).length > 64) ∧
    isOkE (updateElement Hw w1Store w1Tree ((0 : Nat) : Int) (List.replicate 64 7)).2.2 = true ∧
    writeNode Hw [] [116] 0 ((0 : Nat) : Int) (List.replicate 65 7) =
      Except.error TreeError.badLeafValue :=
  ⟨⟨Hw_len, by decide, by decide, by decide⟩,
    claim2_value_length Hw w1Store [] w1Tree 0 (List.replicate 64 7) (List.replicate 65 7)
      [116] 0 0 Hw_len (by decide) (by decide) (by decide)⟩

set_option maxRecDepth 100000 in
/-- C6 counterexample: on a fresh depth-32 tree, getHashPath at the in-range
index 2^31 does not return 32 ordered pairs — it fails with the range error,
because the level-0 sibling index (2^31 xor 1) coerces to a negative 32-bit
integer inside the key derivation. -/
theorem claim6_counterexample :
    (MerkleTree.new Hw [] [116] 32).2 = Except.ok (w32Store, w32Tree) ∧
    (getHashPath Hw w32Store w32Tree (2147483648 : Int)).2 =
      Except.error TreeError.outOfRange := by
  decide

/-- C6 (amended): for a tree of depth D in [1, 32] and an index i < 2^D with
i < 2^31, getHashPath succeeds and returns exactly D pairs, where the pair at
level l is (node value, sibling value) of index i >> l if that index is even
and (sibling value, node value) if odd, the sibling index being
(i >> l) xor 1.  (For D = 32, indices at or above 2^31 instead throw.) -/
theorem claim6_hash_path_shape (H : Bytes → Bytes) (s : Store) (t : MerkleTree)
    (i l : Nat) (hD : 1 ≤ t.depth ∧ t.depth ≤ 32) (hiD : i < 2 ^ t.depth)
    (hi31 : i < 2147483648) (hl : l < t.depth) :
    (getHashPath H s t (i : Int)).2 =
      Except.ok (pathPairs H s t.name t.depth t.depth 0 i) ∧
    (pathPairs H s t.name t.depth t.depth 0 i).length = t.depth ∧
    (pathPairs H s t.name t.depth t.depth 0 i).getD l ([], []) =
      (if (i / 2 ^ l) % 2 = 0 then
        (nodeAt H s t.name l (i / 2 ^ l), nodeAt H s t.name l (i / 2 ^ l ^^^ 1))
      else
        (nodeAt H s t.name l (i / 2 ^ l ^^^ 1), nodeAt H s t.name l (i / 2 ^ l))) := by
  have hD32 : t.depth < 4294967296 := by omega
  refine ⟨getHashPath_ok H s t i hi31 hD32,
    pathPairs_length H s t.name t.depth t.depth 0 i (by omega), ?_⟩
  rw [pathPairs_getD H s t.name t.depth t.depth 0 i l (by omega) hl]
  show pairAt H s t.name (0 + l) (i / 2 ^ l) = _
  rw [Nat.zero_add]
  rfl

theorem claim6_witness :
    ((1 ≤ 1 ∧ 1 ≤ 32) ∧ (0 : Nat) < 2 ^ 1 ∧ (0 : Nat) < 2147483648 ∧ (0 : Nat) < 1) ∧
    ((getHashPath Hw w1Store w1Tree ((0 : Nat) : Int)).2 =
        Except.ok (pathPairs Hw w1Store [116] 1 1 0 0) ∧
      (pathPairs Hw w1Store [116] 1 1 0 0).length = 1 ∧
      (pathPairs Hw w1Store [116] 1 1 0 0).getD 0 ([], []) =
        (if (0 / 2 ^ 0) % 2 = 0 then
          (nodeAt Hw w1Store [116] 0 (0 / 2 ^ 0), nodeAt Hw w1Store [116] 0 (0 / 2 ^ 0 ^^^ 1))
        else
          (nodeAt Hw w1Store [116] 0 (0 / 2 ^ 0 ^^^ 1), nodeAt Hw w1Store [116] 0 (0 / 2 ^ 0)))) :=
  ⟨⟨by decide, by decide, by decide, by decide⟩,
    claim6_hash_path_shape Hw w1Store w1Tree 0 0 (by decide) (by decide) (by decide) (by decide)⟩

set_option maxRecDepth 100000 in
/-- C1 counterexample: on a fresh depth-32 tree (no updates applied yet) and
the in-range index 2^31, getHashPath returns no sequence of pairs at all — it
fails with the range error — so no fold over its result can reproduce
getRoot(). -/
theorem claim1_counterexample :
    (MerkleTree.new Hw [] [116] 32).2 = Except.ok (w32Store, w32Tree) ∧
    isOkE (getHashPath Hw w32Store w32Tree (2147483648 : Int)).2 = false := by
  decide

/- The new leaf hash after an update of leaf i. -/
theorem leafHash_cons_self (H : Bytes → Bytes) (lv : List (Nat × Bytes)) (i : Nat)
    (v : Bytes) : leafHash H ((i, v) :: lv) i = H v := by
  unfold leafHash
  rw [List.lookup_cons, beq_self_eq_true]

theorem div_pow_succ (i k : Nat) : i / 2 ^ k / 2 = i / 2 ^ (k + 1) := by
  rw [Nat.div_div_eq_div_mul, ← pow_succ]

/- Core invariant of the update walk: entering level l with the new value of
   the path node at level l-1 and a store in which exactly the path nodes
   below l carry new values, the walk ends with the new root and a store in
   which the whole path carries new values. -/
theorem updateLoopAux_inv (H : Bytes → Bytes) (name : Bytes) (D : Nat)
    (Hlen : ∀ b, (H b).length = 32) (hD32 : D < 4294967296)
    (HInj : KeyInjOn H name D)
    (ol : List (Nat × Bytes)) (i : Nat) (v : Bytes)
    (hiD : i < 2 ^ D) (hi31 : i < 2147483648) :
    ∀ fuel (s : Store) (level : Nat),
      fuel + level = D + 1 → 1 ≤ level →
      MidInvAt H name D ol ((i, v) :: ol) i level s →
      ∃ s2, updateLoopAux H name D fuel s level ((i / 2 ^ (level - 1) : Nat) : Int)
          (nodeVal H ((i, v) :: ol) (level - 1) (i / 2 ^ (level - 1))) =
        (s2, Except.ok (nodeVal H ((i, v) :: ol) D 0)) ∧
        MidInvAt H name D ol ((i, v) :: ol) i (D + 1) s2 := by
  intro fuel
  induction fuel with
  | zero =>
    intro s level hf h1 hmid
    have hlv : level = D + 1 := by omega
    subst hlv
    rw [updateLoopAux.eq_1]
    have he : D + 1 - 1 = D := by omega
    rw [he]
    rw [Nat.div_eq_of_lt hiD]
    exact ⟨s, rfl, hmid⟩
  | succ fuel ih =>
    intro s level hf h1 hmid
    have hle : level ≤ D := by omega
    have hjD : i / 2 ^ (level - 1) < 2 ^ (D + 1 - level) := by
      have hh := div_pow_lt i D (level - 1) hiD
      have he : D - (level - 1) = D + 1 - level := by omega
      rw [he] at hh
      exact hh
    have hj31 : i / 2 ^ (level - 1) < 2147483648 := by
      have hds : i / 2 ^ (level - 1) ≤ i := Nat.div_le_self _ _
      omega
    rw [updateLoopAux.eq_2, if_neg (by omega : ¬level > D)]
    have hx31 : i / 2 ^ (level - 1) ^^^ 1 < 2147483648 :=
      xor_one_lt (i / 2 ^ (level - 1)) 31 (by omega) hj31
    rw [jsXor1_natCast (i / 2 ^ (level - 1)) hj31]
    rw [readNode_nat_snd H s name (level - 1) (i / 2 ^ (level - 1) ^^^ 1) (by omega) (by omega)]
    dsimp only
    rw [jsEven_natCast (i / 2 ^ (level - 1)) (by omega),
      jsShr1_natCast (i / 2 ^ (level - 1)) hj31]
    have hsibdom : i / 2 ^ (level - 1) ^^^ 1 < 2 ^ (D - (level - 1)) := by
      have he : D - (level - 1) = D + 1 - level := by omega
      rw [he]
      exact xor_one_lt (i / 2 ^ (level - 1)) (D + 1 - level) (by omega) hjD
    have hsib : nodeAt H s name (level - 1) (i / 2 ^ (level - 1) ^^^ 1) =
        nodeVal H ((i, v) :: ol) (level - 1) (i / 2 ^ (level - 1) ^^^ 1) := by
      have hmids := hmid (level - 1) (by omega) (i / 2 ^ (level - 1) ^^^ 1) hsibdom
      rw [hmids]
      rw [if_neg (by
        intro hand
        exact xor_one_ne (i / 2 ^ (level - 1)) hand.2)]
      exact (nodeVal_untouched H ol i v (level - 1) (i / 2 ^ (level - 1) ^^^ 1)
        (by
          intro habs
          exact xor_one_ne (i / 2 ^ (level - 1)) habs.symm)).symm
    rw [hsib]
    have hparent : (if (decide (i / 2 ^ (level - 1) % 2 = 0)) = true then
          compress H (nodeVal H ((i, v) :: ol) (level - 1) (i / 2 ^ (level - 1)))
            (nodeVal H ((i, v) :: ol) (level - 1) (i / 2 ^ (level - 1) ^^^ 1))
        else
          compress H (nodeVal H ((i, v) :: ol) (level - 1) (i / 2 ^ (level - 1) ^^^ 1))
            (nodeVal H ((i, v) :: ol) (level - 1) (i / 2 ^ (level - 1)))) =
        nodeVal H ((i, v) :: ol) level (i / 2 ^ (level - 1) / 2) := by
      by_cases hp : i / 2 ^ (level - 1) % 2 = 0
      · rw [if_pos (by simp [hp])]
        have hpe := nodeVal_parent_even H ((i, v) :: ol) (level - 1) (i / 2 ^ (level - 1)) hp
        rw [show level - 1 + 1 = level by omega] at hpe
        exact hpe.symm
      · rw [if_neg (by simp [hp])]
        have hpo := nodeVal_parent_odd H ((i, v) :: ol) (level - 1) (i / 2 ^ (level - 1))
          (by omega)
        rw [show level - 1 + 1 = level by omega] at hpo
        exact hpo.symm
    rw [hparent]
    have hdom2 : i / 2 ^ (level - 1) / 2 < 2 ^ (D - level) := by
      have h2 : 2 ^ (D + 1 - level) = 2 * 2 ^ (D - level) := by
        rw [← pow_succ']
        congr 1
        omega
      omega
    have hw := writeNode_nat H s name level (i / 2 ^ (level - 1) / 2)
      (nodeVal H ((i, v) :: ol) level (i / 2 ^ (level - 1) / 2)) (by omega) (by omega)
      (by rw [nodeVal_len H Hlen]; omega)
    rw [hw]
    dsimp only
    have hstep : i / 2 ^ (level - 1) / 2 = i / 2 ^ level := by
      rw [div_pow_succ, show level - 1 + 1 = level by omega]
    have hmid2 : MidInvAt H name D ol ((i, v) :: ol) i (level + 1)
        ((nodeKey H name level (i / 2 ^ (level - 1) / 2),
          nodeVal H ((i, v) :: ol) level (i / 2 ^ (level - 1) / 2)) :: s) := by
      intro m hm jj hjj
      by_cases hk : nodeKey H name m jj = nodeKey H name level (i / 2 ^ (level - 1) / 2)
      · obtain ⟨hmeq, hjeq⟩ := HInj m hm jj hjj level (by omega)
          (i / 2 ^ (level - 1) / 2) hdom2 hk
        have hcnd : jj = i / 2 ^ m := by
          rw [hjeq, hmeq, hstep]
        rw [if_pos ⟨by omega, hcnd⟩]
        unfold nodeAt
        rw [List.lookup_cons]
        rw [show (nodeKey H name m jj ==
            nodeKey H name level (i / 2 ^ (level - 1) / 2)) = true by
          rw [hk]; exact beq_self_eq_true _]
        show nodeVal H ((i, v) :: ol) level (i / 2 ^ (level - 1) / 2) =
          nodeVal H ((i, v) :: ol) m jj
        rw [hmeq, hjeq]
      · rw [nodeAt_cons_ne H s name _ _ m jj hk]
        rw [hmid m hm jj hjj]
        by_cases hcnd : jj = i / 2 ^ m
        · by_cases hmlt : m < level
          · rw [if_pos ⟨hmlt, hcnd⟩, if_pos ⟨by omega, hcnd⟩]
          · by_cases hmeq : m = level
            · exfalso
              apply hk
              have hjj2 : jj = i / 2 ^ (level - 1) / 2 := by
                rw [hcnd, hmeq, hstep]
              rw [hmeq, hjj2]
            · rw [if_neg (by intro hand; omega), if_neg (by intro hand; omega)]
        · rw [if_neg (by intro hand; exact hcnd hand.2),
            if_neg (by intro hand; exact hcnd hand.2)]
    have hrec := ih ((nodeKey H name level (i / 2 ^ (level - 1) / 2),
        nodeVal H ((i, v) :: ol) level (i / 2 ^ (level - 1) / 2)) :: s) (level + 1)
      (by omega) (by omega) hmid2
    have hlv2 : level + 1 - 1 = level := by omega
    rw [hlv2] at hrec
    rw [← hstep] at hrec
    exact hrec

/- A successful updateElement on an in-range index below 2^31 replaces the
   whole path of leaf i with new values, prepends the metadata record of the
   new root, and returns that root. -/
theorem updateElement_inv (H : Bytes → Bytes) (name : Bytes) (D : Nat)
    (Hlen : ∀ b, (H b).length = 32) (hD1 : 1 ≤ D) (hD32 : D < 4294967296)
    (HInj : KeyInjOn H name D) (HName : KeyNameFree H name D)
    (ol : List (Nat × Bytes)) (s : Store) (t : MerkleTree) (i : Nat) (v : Bytes)
    (hiD : i < 2 ^ D) (hi31 : i < 2147483648)
    (hname : t.name = name) (hdepth : t.depth = D)
    (hInv : InvAt H name D ol s) :
    ∃ s2, updateElement H s t (i : Int) v =
        ((name, writeMetaData (nodeVal H ((i, v) :: ol) D 0) D) :: s2,
          { t with root := nodeVal H ((i, v) :: ol) D 0 },
          Except.ok (nodeVal H ((i, v) :: ol) D 0)) ∧
      InvAt H name D ((i, v) :: ol)
        ((name, writeMetaData (nodeVal H ((i, v) :: ol) D 0) D) :: s2) := by
  unfold updateElement
  dsimp only
  rw [hname, hdepth]
  have hw0 := writeNode_nat H s name 0 i (H v) (by omega) (by omega) (by rw [Hlen]; omega)
  rw [hw0]
  dsimp only
  have hmid1 : MidInvAt H name D ol ((i, v) :: ol) i 1 ((nodeKey H name 0 i, H v) :: s) := by
    intro m hm jj hjj
    by_cases hk : nodeKey H name m jj = nodeKey H name 0 i
    · obtain ⟨hmeq, hjeq⟩ := HInj m hm jj hjj 0 (by omega) i
        (by
          have he : D - 0 = D := by omega
          rw [he]
          exact hiD) hk
      have hcnd : jj = i / 2 ^ m := by
        rw [hjeq, hmeq, Nat.pow_zero, Nat.div_one]
      rw [if_pos ⟨by omega, hcnd⟩]
      unfold nodeAt
      rw [List.lookup_cons]
      rw [show (nodeKey H name m jj == nodeKey H name 0 i) = true by
        rw [hk]; exact beq_self_eq_true _]
      show H v = nodeVal H ((i, v) :: ol) m jj
      rw [hmeq, hjeq]
      exact (leafHash_cons_self H ol i v).symm
    · rw [nodeAt_cons_ne H s name _ _ m jj hk]
      rw [hInv m hm jj hjj]
      rw [if_neg (by
        intro hand
        apply hk
        have hm0 : m = 0 := by omega
        have hji : jj = i := by
          rw [hand.2, hm0, Nat.pow_zero, Nat.div_one]
        rw [hm0, hji])]
  have hloop := updateLoopAux_inv H name D Hlen hD32 HInj ol i v hiD hi31 D
    ((nodeKey H name 0 i, H v) :: s) 1 (by omega) (by omega) hmid1
  have he0 : (1 : Nat) - 1 = 0 := by omega
  rw [he0] at hloop
  rw [Nat.pow_zero, Nat.div_one] at hloop
  have hleaf : nodeVal H ((i, v) :: ol) 0 i = H v := leafHash_cons_self H ol i v
  rw [hleaf] at hloop
  obtain ⟨s2, heq, hmidD⟩ := hloop
  rw [heq]
  dsimp only
  refine ⟨s2, rfl, ?_⟩
  intro m hm jj hjj
  have hkeyn : nodeKey H name m jj ≠ name := HName m hm jj hjj
  rw [nodeAt_cons_ne H s2 name name _ m jj hkeyn]
  rw [hmidD m hm jj hjj]
  by_cases hcnd : jj = i / 2 ^ m
  · rw [if_pos ⟨by omega, hcnd⟩]
  · rw [if_neg (by intro hand; exact hcnd hand.2)]
    exact (nodeVal_untouched H ol i v m jj (by intro habs; exact hcnd habs.symm)).symm

/- Through a sequence of successful updates the store keeps reflecting some
   leaves assignment exactly, and every call indeed succeeds. -/
theorem applyUpdates_inv (H : Bytes → Bytes) (name : Bytes) (D : Nat)
    (Hlen : ∀ b, (H b).length = 32) (hD1 : 1 ≤ D) (hD32 : D < 4294967296)
    (HInj : KeyInjOn H name D) (HName : KeyNameFree H name D) :
    ∀ us (s : Store) (t : MerkleTree) (ol : List (Nat × Bytes)),
      t.name = name → t.depth = D → getRoot t = nodeVal H ol D 0 →
      InvAt H name D ol s →
      (∀ u ∈ us, 0 ≤ u.1 ∧ u.1 < (2 ^ D : Int) ∧ u.1 < (2147483648 : Int)) →
      ∃ ol2, (applyUpdates H (s, t) us).2.2 = true ∧
        (applyUpdates H (s, t) us).2.1.name = name ∧
        (applyUpdates H (s, t) us).2.1.depth = D ∧
        getRoot (applyUpdates H (s, t) us).2.1 = nodeVal H ol2 D 0 ∧
        InvAt H name D ol2 (applyUpdates H (s, t) us).1 := by
  intro us
  induction us with
  | nil =>
    intro s t ol hn hd hroot hInv _
    exact ⟨ol, rfl, hn, hd, hroot, hInv⟩
  | cons u rest ih =>
    intro s t ol hn hd hroot hInv hb
    obtain ⟨hu0, huD, hu31⟩ := hb u (List.mem_cons_self u rest)
    have hbrest : ∀ w ∈ rest, 0 ≤ w.1 ∧ w.1 < (2 ^ D : Int) ∧ w.1 < (2147483648 : Int) :=
      fun w hw => hb w (List.mem_cons_of_mem u hw)
    obtain ⟨iz, v⟩ := u
    have hiNat : iz = ((iz.toNat : Nat) : Int) := by omega
    have hiD : iz.toNat < 2 ^ D := by
      have h2 : ((2 : Int) ^ D) = ((2 ^ D : Nat) : Int) := by push_cast; ring
      omega
    have hi31 : iz.toNat < 2147483648 := by omega
    obtain ⟨s2, heq, hInv2⟩ := updateElement_inv H name D Hlen hD1 hD32 HInj HName
      ol s t iz.toNat v hiD hi31 hn hd hInv
    rw [applyUpdates.eq_2]
    dsimp only
    rw [hiNat, heq]
    dsimp only
    have hrec := ih ((name, writeMetaData (nodeVal H ((iz.toNat, v) :: ol) D 0) D) :: s2)
      { t with root := nodeVal H ((iz.toNat, v) :: ol) D 0 } ((iz.toNat, v) :: ol)
      (by rw [hn]) (by rw [hd]) rfl hInv2 hbrest
    obtain ⟨ol2, hflag, hname2, hdep2, hroot2, hInv3⟩ := hrec
    refine ⟨ol2, ?_, hname2, hdep2, hroot2, hInv3⟩
    rw [hflag]
    rfl

/- Under the store invariant, compressing a path pair yields the parent node
   value, and the parity-appropriate component of a pair is the node value
   itself. -/
theorem compress_pairAt (H : Bytes → Bytes) (s : Store) (name : Bytes) (D : Nat)
    (lv : List (Nat × Bytes)) (hInv : InvAt H name D lv s) (level j : Nat)
    (hlD : level < D) (hj : j < 2 ^ (D - level)) :
    compress H (pairAt H s name level j).1 (pairAt H s name level j).2 =
      nodeVal H lv (level + 1) (j / 2) := by
  have hnode := hInv level (by omega) j hj
  have hsib := hInv level (by omega) (j ^^^ 1) (xor_one_lt j (D - level) (by omega) hj)
  unfold pairAt
  by_cases hp : j % 2 = 0
  · rw [if_pos hp]
    dsimp only
    rw [hnode, hsib]
    exact (nodeVal_parent_even H lv level j hp).symm
  · rw [if_neg hp]
    dsimp only
    rw [hnode, hsib]
    exact (nodeVal_parent_odd H lv level j (by omega)).symm

theorem pairAt_sel (H : Bytes → Bytes) (s : Store) (name : Bytes) (D : Nat)
    (lv : List (Nat × Bytes)) (hInv : InvAt H name D lv s) (level j : Nat)
    (hlD : level < D) (hj : j < 2 ^ (D - level)) :
    (if j % 2 = 0 then (pairAt H s name level j).1 else (pairAt H s name level j).2) =
      nodeVal H lv level j := by
  unfold pairAt
  by_cases hp : j % 2 = 0
  · rw [if_pos hp, if_pos hp]
    exact hInv level (by omega) j hj
  · rw [if_neg hp, if_neg hp]
    exact hInv level (by omega) j hj

theorem pathLinkedB_of_inv (H : Bytes → Bytes) (s : Store) (name : Bytes) (D : Nat)
    (lv : List (Nat × Bytes)) (hInv : InvAt H name D lv s) :
    ∀ fuel level (j : Nat), fuel + level = D → 1 ≤ fuel → j < 2 ^ (D - level) →
      pathLinkedB H j (pathPairs H s name D fuel level j) (nodeVal H lv D 0) = true := by
  intro fuel
  induction fuel with
  | zero => intro level j hf h1 hj; omega
  | succ fuel ih =>
    intro level j hf h1 hj
    rw [pathPairs.eq_2, if_neg (by omega : ¬level ≥ D)]
    cases fuel with
    | zero =>
      rw [pathPairs.eq_1]
      show (compress H (pairAt H s name level j).1 (pairAt H s name level j).2 ==
        nodeVal H lv D 0) = true
      rw [compress_pairAt H s name D lv hInv level j (by omega) hj]
      have hD : level + 1 = D := by omega
      have hj0 : j / 2 = 0 := by
        have : D - level = 1 := by omega
        rw [this] at hj
        omega
      rw [hD, hj0]
      exact beq_self_eq_true _
    | succ fuel2 =>
      rw [pathPairs.eq_2, if_neg (by omega : ¬level + 1 ≥ D)]
      show ((compress H (pairAt H s name level j).1 (pairAt H s name level j).2 ==
          (if (j / 2) % 2 = 0 then (pairAt H s name (level + 1) (j / 2)).1
            else (pairAt H s name (level + 1) (j / 2)).2)) &&
        pathLinkedB H (j / 2) (pairAt H s name (level + 1) (j / 2) ::
          pathPairs H s name D fuel2 (level + 1 + 1) (j / 2 / 2)) (nodeVal H lv D 0)) = true
      have hj2 : j / 2 < 2 ^ (D - (level + 1)) := by
        have h2 : 2 ^ (D - level) = 2 * 2 ^ (D - (level + 1)) := by
          rw [← pow_succ']
          congr 1
          omega
        omega
      rw [compress_pairAt H s name D lv hInv level j (by omega) hj]
      rw [pairAt_sel H s name D lv hInv (level + 1) (j / 2) (by omega) hj2]
      rw [beq_self_eq_true]
      have ihh := ih (level + 1) (j / 2) (by omega) (by omega) hj2
      rw [pathPairs.eq_2, if_neg (by omega : ¬level + 1 ≥ D)] at ihh
      rw [ihh]
      rfl

/-- C1 (amended): for every depth D in [1, 32], every sequence of successful
updateElement calls with indices in [0, min(2^D, 2^31)) applied to a freshly
created tree, and every index i in that range, getHashPath(i) succeeds,
returns the level-by-level pairs, and folding compress bottom-up over them —
each pair compressing to the parity-appropriate component of the next, the
top pair compressing to the root — reproduces getRoot() exactly, assuming
32-byte digests and collision-free node keys.  (For D = 32, indices at or
above 2^31 instead make getHashPath and updateElement throw a range error:
see the counterexample.) -/
theorem claim1_inclusion_consistency (H : Bytes → Bytes) (s0 : Store) (name : Bytes)
    (D : Nat) (s1 : Store) (t1 : MerkleTree) (us : List (Int × Bytes)) (i : Nat)
    (Hlen : ∀ b, (H b).length = 32) (hd : 1 ≤ D ∧ D ≤ 32)
    (HInj : KeyInjOn H name D) (HName : KeyNameFree H name D)
    (HFresh : KeyFreshFor H name D s0)
    (hnone : s0.lookup name = none)
    (hnew : (MerkleTree.new H s0 name D).2 = Except.ok (s1, t1))
    (hb : ∀ u ∈ us, 0 ≤ u.1 ∧ u.1 < (2 ^ D : Int) ∧ u.1 < (2147483648 : Int))
    (hiD : i < 2 ^ D) (hi31 : i < 2147483648) :
    (applyUpdates H (s1, t1) us).2.2 = true ∧
    (getHashPath H (applyUpdates H (s1, t1) us).1 (applyUpdates H (s1, t1) us).2.1
        (i : Int)).2 =
      Except.ok (pathPairs H (applyUpdates H (s1, t1) us).1 name D D 0 i) ∧
    pathLinkedB H i (pathPairs H (applyUpdates H (s1, t1) us).1 name D D 0 i)
      (getRoot (applyUpdates H (s1, t1) us).2.1) = true := by
  rw [new_fresh H s0 name D hnone hd] at hnew
  simp only [Except.ok.injEq, Prod.mk.injEq] at hnew
  obtain ⟨hs1, ht1⟩ := hnew
  have hD32 : D < 4294967296 := by omega
  -- the fresh state satisfies the invariant with the empty leaves assignment
  have hInv1 : InvAt H name D [] s1 := by
    intro m hm jj hjj
    rw [← hs1]
    rw [nodeAt_cons_ne H s0 name name _ m jj (HName m hm jj hjj)]
    unfold nodeAt
    rw [HFresh m hm jj hjj]
    rw [nodeVal_nil H m jj]
    exact emptyHash_eq_rec H m
  have hroot1 : getRoot t1 = nodeVal H [] D 0 := by
    rw [← ht1]
    show emptyHash H D = _
    rw [nodeVal_nil H D 0]
    exact emptyHash_eq_rec H D
  obtain ⟨ol2, hflag, hname2, hdep2, hroot2, hInv2⟩ :=
    applyUpdates_inv H name D Hlen hd.1 hD32 HInj HName us s1 t1 []
      (by rw [← ht1]) (by rw [← ht1]) hroot1 hInv1 hb
  refine ⟨hflag, ?_, ?_⟩
  · have hgp := getHashPath_ok H (applyUpdates H (s1, t1) us).1
      (applyUpdates H (s1, t1) us).2.1 i hi31 (by rw [hdep2]; omega)
    rw [hname2, hdep2] at hgp
    exact hgp
  · rw [hroot2]
    have hpl := pathLinkedB_of_inv H (applyUpdates H (s1, t1) us).1 name D ol2 hInv2
      D 0 i (by omega) (by omega)
      (by
        have he : D - 0 = D := by omega
        rw [he]
        exact hiD)
    exact hpl

theorem claim1_witness :
    ((∀ b, (Hw b).length = 32) ∧ (1 ≤ 1 ∧ 1 ≤ 32) ∧ KeyInjOn Hw [116] 1 ∧
      KeyNameFree Hw [116] 1 ∧ KeyFreshFor Hw [116] 1 [] ∧
      ([] : Store).lookup [116] = none ∧
      (∀ u ∈ [((0 : Int), [9])], 0 ≤ u.1 ∧ u.1 < ((2 : Int) ^ 1) ∧
        u.1 < (2147483648 : Int)) ∧ (0 : Nat) < 2 ^ 1 ∧ (0 : Nat) < 2147483648) ∧
    (applyUpdates Hw (w1Store, w1Tree) [((0 : Int), [9])]).2.2 = true ∧
    (getHashPath Hw (applyUpdates Hw (w1Store, w1Tree) [((0 : Int), [9])]).1
        (applyUpdates Hw (w1Store, w1Tree) [((0 : Int), [9])]).2.1 ((0 : Nat) : Int)).2 =
      Except.ok (pathPairs Hw (applyUpdates Hw (w1Store, w1Tree) [((0 : Int), [9])]).1
        [116] 1 1 0 0) ∧
    pathLinkedB Hw 0 (pathPairs Hw (applyUpdates Hw (w1Store, w1Tree) [((0 : Int), [9])]).1
        [116] 1 1 0 0)
      (getRoot (applyUpdates Hw (w1Store, w1Tree) [((0 : Int), [9])]).2.1) = true :=
  ⟨⟨Hw_len, by decide, by decide, by decide, by decide, rfl, by decide, by decide, by decide⟩,
    claim1_inclusion_consistency Hw [] [116] 1 w1Store w1Tree [((0 : Int), [9])] 0
      Hw_len (by decide) (by decide) (by decide) (by decide) rfl (by decide)
      (by decide) (by decide) (by decide)⟩
